import Mathlib

/-!
Verification of the VoteKit STV election core
(`src/votekit/election_types.py`, `src/votekit/election_state.py`).

The Python source is shallowly embedded below.  Python `Fraction`s become
`ℚ`, Python `int` becomes `ℤ`, and Python lists become `List`.  A Python
`set` of candidate names (a tie group of a ballot) is represented by the
list of its members; the source code only ever consumes such a set
through `==` comparisons against a singleton set, and Python `==` on
sets is extensional (mutual inclusion), embedded here as `setEqB`.
Functions that can raise exceptions on the embedded fragment return
`Option`.

`profile.py` / `ballot.py` are not part of the sources; the attributes
and methods of `Ballot` and `PreferenceProfile` that the election core
calls (`weight`, `ranking`, `get_ballots`, `num_ballots`,
`get_candidates`) are modelled from the spec, as noted at each
definition.
-/

/-- Python `==` on sets of candidate names: mutual inclusion of the
member lists. -/
def setEqB (g h : List String) : Bool :=
  g.all (· ∈ h) && h.all (· ∈ g)

/-- A ballot: an ordered ranking of tie groups plus a rational weight.
Modelled from the spec: `ballot.py` is absent from src/; the spec says a
Ballot has `ranking`: ordered sequence of sets of candidate identifiers
(each set represented by the list of its members), and `weight`: an
exact rational number. -/
structure Ballot where
  ranking : List (List String)
  weight : ℚ
deriving DecidableEq

/-- A preference profile: an ordered sequence of ballots.
Modelled from the spec: `profile.py` is absent from src/. -/
structure PreferenceProfile where
  ballots : List Ballot
deriving DecidableEq

/-- Modelled from the spec: `PreferenceProfile.get_ballots` returns the
profile's ballot sequence. -/
def PreferenceProfile.get_ballots (p : PreferenceProfile) : List Ballot :=
  p.ballots

/-- Modelled from the spec: `PreferenceProfile.num_ballots` is the
profile's total ballot weight (`total_weight()` = sum of ballot weights;
ballots carry multiplicity in their weight), an exact rational. -/
def PreferenceProfile.num_ballots (p : PreferenceProfile) : ℚ :=
  (p.ballots.map Ballot.weight).sum

/-- First-occurrence deduplication: the order in which a Python `dict`
(or an iteration-ordered set) keeps keys that are inserted in sequence —
a later duplicate does not move a key. -/
def pyDedup : List String → List String
  | [] => []
  | c :: rest => c :: (pyDedup rest).filter (· ≠ c)

/-- Modelled from the spec: `PreferenceProfile.get_candidates` is the
set union of all ranked candidates across ballots.  The spec fixes only
which candidates are in the result, not their order; we enumerate them
in order of first appearance, without duplicates. -/
def PreferenceProfile.get_candidates (p : PreferenceProfile) : List String :=
  pyDedup (p.ballots.flatMap (fun b => b.ranking.flatMap id))

/-- `ballot.ranking and ballot.ranking[0] == {candidate}` from
`compute_votes` / `fractional_transfer` (`election_types.py` lines 138,
160): the ballot's ranking is non-empty and its first tie group is
exactly the singleton set of the candidate. -/
def firstIs (c : String) (b : Ballot) : Bool :=
  match b.ranking with
  | [] => false
  | g :: _ => setEqB g [c]

/-- The inner loop of `compute_votes`: the accumulated weight of the
ballots whose first preference is exactly `c`. -/
def tallyOf (c : String) (ballots : List Ballot) : ℚ :=
  ((ballots.filter (firstIs c)).map Ballot.weight).sum

/-- The descending-votes order used by
`sorted(votes.items(), key=lambda x: x[1], reverse=True)`. -/
def voteOrder (a b : String × ℚ) : Prop :=
  b.2 ≤ a.2

instance : DecidableRel voteOrder :=
  fun a b => inferInstanceAs (Decidable (b.2 ≤ a.2))

instance : IsTotal (String × ℚ) voteOrder :=
  ⟨fun a b => le_total b.2 a.2⟩

instance : IsTrans (String × ℚ) voteOrder :=
  ⟨fun _ _ _ h1 h2 => le_trans h2 h1⟩

/-- `compute_votes(candidates, ballots)`
(`election_types.py` lines 130-147): one entry per distinct candidate in
first-occurrence order (the `votes` dict), paired with its first-place
weight, then stably sorted by weight in descending order.  Python's
`sorted(..., reverse=True)` is a stable sort and so is
`List.insertionSort` with a total preorder (a stable sort's output is
uniquely determined by the input and the preorder), so the two agree
exactly, including the order of candidates with equal tallies. -/
def compute_votes (candidates : List String) (ballots : List Ballot) :
    List (String × ℚ) :=
  List.insertionSort voteOrder
    ((pyDedup candidates).map (fun c => (c, tallyOf c ballots)))

/-- `remove_cand(removed_cand, ballots)`
(`election_types.py` lines 166-178): drops from every ballot's ranking
the tie groups that are `== {removed_cand}` (the Python comparison is on
the whole set, so a tie group merely containing `removed_cand` among
others is kept); weights are untouched.  The Python `deepcopy` means the
input list is not mutated, matching a pure function. -/
def remove_cand (removed_cand : String) (ballots : List Ballot) : List Ballot :=
  ballots.map (fun b =>
    { b with ranking := b.ranking.filter (fun g => !(setEqB g [removed_cand])) })

/-- `votes[winner]` on the dict passed by `run_step`.  The dict is an
association list with distinct keys; Python raises `KeyError` on a
missing key, which the election core never triggers (every winner is a
key of the dict it passes), so a default of `0` is unreachable there. -/
def dictGet (votes : List (String × ℚ)) (winner : String) : ℚ :=
  ((votes.find? (fun e => e.1 = winner)).map Prod.snd).getD 0

/-- `fractional_transfer(winner, ballots, votes, threshold)`
(`election_types.py` lines 150-163): scales the weight of every ballot
whose first preference is the winner by
`(votes[winner] - threshold)/votes[winner]`, then removes the winner via
`remove_cand`.  Python would raise `ZeroDivisionError` when
`votes[winner] == 0`; in `ℚ`, division by zero yields `0` (the engine
only calls this with `votes[winner] ≥ threshold ≥ 1`).  The Python
function mutates the input ballots' weights in place before `remove_cand`
deep-copies; the returned value is as below, and the in-place effect is
modelled separately for the frame-effect analysis. -/
def fractional_transfer (winner : String) (ballots : List Ballot)
    (votes : List (String × ℚ)) (threshold : ℤ) : List Ballot :=
  let transfer_value : ℚ := (dictGet votes winner - threshold) / dictGet votes winner
  remove_cand winner
    (ballots.map (fun b =>
      if firstIs winner b then { b with weight := b.weight * transfer_value } else b))

/-- Python `int(...)` applied to a `Fraction`: truncation toward zero. -/
def pyInt (q : ℚ) : ℤ :=
  if 0 ≤ q then ⌊q⌋ else -⌊-q⌋

/-- `ElectionState` (`election_state.py` lines 6-29): an immutable
snapshot of one round, backward-linked to the previous round.  The
engine never sets `winner_votes` (it is always `None` in every record it
builds), so that field is omitted.  Pydantic's `allow_mutation = False`
forbids reassigning fields; it does not prevent in-place mutation of the
list objects the fields refer to, which the frame-effect analysis below
models explicitly. -/
inductive ElectionState : Type where
  | mk (curr_round : ℤ) (elected : List String) (eliminated : List String)
      (remaining : List String) (profile : PreferenceProfile)
      (previous : Option ElectionState) : ElectionState

def ElectionState.curr_round : ElectionState → ℤ
  | .mk r _ _ _ _ _ => r

def ElectionState.elected : ElectionState → List String
  | .mk _ e _ _ _ _ => e

def ElectionState.eliminated : ElectionState → List String
  | .mk _ _ e _ _ _ => e

def ElectionState.remaining : ElectionState → List String
  | .mk _ _ _ r _ _ => r

def ElectionState.profile : ElectionState → PreferenceProfile
  | .mk _ _ _ _ p _ => p

def ElectionState.previous : ElectionState → Option ElectionState
  | .mk _ _ _ _ _ p => p

/-- `get_all_winners` (`election_state.py` lines 31-36): previous
rounds' winners first, then this round's `elected`. -/
def ElectionState.get_all_winners : ElectionState → List String
  | .mk _ e _ _ _ (some p) => p.get_all_winners ++ e
  | .mk _ e _ _ _ none => e

/-- `get_all_eliminated` (`election_state.py` lines 38-46): this round's
`eliminated` reversed, then the previous rounds'. -/
def ElectionState.get_all_eliminated : ElectionState → List String
  | .mk _ _ e _ _ (some p) => e.reverse ++ p.get_all_eliminated
  | .mk _ _ e _ _ none => e.reverse

/-- `get_rankings` (`election_state.py` lines 48-51). -/
def ElectionState.get_rankings (s : ElectionState) : List String :=
  s.get_all_winners ++ s.remaining ++ s.get_all_eliminated

/-- `get_round_outcome(roundNum)` (`election_state.py` lines 53-61):
walks `previous` links; `none` models the `ValueError` ("Round number
out of range") raised when the chain is exhausted. -/
def ElectionState.get_round_outcome : ElectionState → ℤ → Option (List String × List String)
  | .mk r e el _ _ prev, roundNum =>
    if r = roundNum then some (e, el)
    else match prev with
      | some p => p.get_round_outcome roundNum
      | none => none

/-- The `STV` engine (`election_types.py` lines 11-45): initial profile,
transfer capability, seat count, current record, cached threshold. -/
structure STV where
  profile : PreferenceProfile
  transfer : String → List Ballot → List (String × ℚ) → ℤ → List Ballot
  seats : ℤ
  election_state : ElectionState
  threshold : ℤ

/-- `get_threshold` (`election_types.py` lines 40-45):
`int(self.election_state.profile.num_ballots() / (self.seats + 1) + 1)`.
(The Python would divide by zero for `seats == -1`; in `ℚ` that division
yields `0`.) -/
def STV.get_threshold (e : STV) : ℤ :=
  pyInt (e.election_state.profile.num_ballots / ((e.seats : ℚ) + 1) + 1)

/-- `STV.__init__` (`election_types.py` lines 16-37): round-0 record
with `remaining` the candidates in `compute_votes` order, then the
threshold cached from that state. -/
def STV.init (profile : PreferenceProfile)
    (transfer : String → List Ballot → List (String × ℚ) → ℤ → List Ballot)
    (seats : ℤ) : STV :=
  let remaining0 :=
    (compute_votes profile.get_candidates profile.get_ballots).map Prod.fst
  let st0 : ElectionState := .mk 0 [] [] remaining0 profile none
  let e : STV :=
    { profile := profile
      transfer := transfer
      seats := seats
      election_state := st0
      threshold := 0 }
  { e with threshold := e.get_threshold }

/-- `next_round` (`election_types.py` lines 47-51):
`len(self.election_state.get_all_winners()) != self.seats`. -/
def STV.next_round (e : STV) : Bool :=
  (e.election_state.get_all_winners.length : ℤ) ≠ e.seats

/-- One iteration of the threshold-elect loop of `run_step`
(`election_types.py` lines 74-83), acting on the accumulator
(elected so far, remaining, ballots).  `remaining.remove(candidate)`
removes the first occurrence (`List.erase`); the candidate is always a
key of the tally and hence present in `remaining`, so the Python
`ValueError` branch of `remove` is unreachable.  The loop rebuilds the
same dict `{cand: votes for cand, votes in fp_votes}` each iteration;
since `fp_votes` has distinct keys, that dict is the association list
`fp_votes` itself. -/
def elect_step (transfer : String → List Ballot → List (String × ℚ) → ℤ → List Ballot)
    (fp_votes : List (String × ℚ)) (threshold : ℤ)
    (acc : List String × List String × List Ballot) (cv : String × ℚ) :
    List String × List String × List Ballot :=
  if (threshold : ℚ) ≤ cv.2 then
    (acc.1 ++ [cv.1], (acc.2.1).erase cv.1, transfer cv.1 acc.2.2 fp_votes threshold)
  else acc

/-- The full threshold-elect loop over `fp_votes`. -/
def elect_loop (transfer : String → List Ballot → List (String × ℚ) → ℤ → List Ballot)
    (fp_votes : List (String × ℚ)) (threshold : ℤ)
    (remaining : List String) (ballots : List Ballot) :
    List String × List String × List Ballot :=
  fp_votes.foldl (elect_step transfer fp_votes threshold) ([], remaining, ballots)

/-- `run_step` (`election_types.py` lines 53-105).  The elimination
tie-break `random.choice(lp_candidates)` is abstracted as the `pick`
parameter (`lp_candidates` is non-empty whenever it is formed, so
`random.choice` cannot fail there).  `none` models the `IndexError`
raised by `fp_votes[0]` when the guard on line 73 is evaluated with no
remaining candidates.  The returned engine carries the values of the new
`ElectionState`; the in-place effects on the *previous* record's list
objects are modelled by `run_step_prev_remaining_after` below. -/
def STV.run_step (pick : List String → String) (e : STV) : Option STV :=
  let remaining := e.election_state.remaining
  let ballots := e.election_state.profile.get_ballots
  let fp_votes := compute_votes remaining ballots
  if (remaining.length : ℤ) = e.seats - (e.election_state.get_all_winners.length : ℤ) then
    let st : ElectionState :=
      .mk (e.election_state.curr_round + 1) (fp_votes.map Prod.fst) [] [] ⟨[]⟩
        (some e.election_state)
    some { e with election_state := st }
  else
    match fp_votes with
    | [] => none
    | top :: _ =>
      if (e.threshold : ℚ) ≤ top.2 then
        let out := elect_loop e.transfer fp_votes e.threshold remaining ballots
        let st : ElectionState :=
          .mk (e.election_state.curr_round + 1) out.1 [] out.2.1 ⟨out.2.2⟩
            (some e.election_state)
        some { e with election_state := st }
      else if (e.election_state.get_all_winners.length : ℤ) ≠ e.seats then
        let lp_votes := (fp_votes.map Prod.snd).foldl min top.2
        let lp_candidates := (fp_votes.filter (fun cv => cv.2 = lp_votes)).map Prod.fst
        let lp_cand := pick lp_candidates
        let st : ElectionState :=
          .mk (e.election_state.curr_round + 1) [] [lp_cand] (remaining.erase lp_cand)
            ⟨remove_cand lp_cand ballots⟩ (some e.election_state)
        some { e with election_state := st }
      else
        let st : ElectionState :=
          .mk (e.election_state.curr_round + 1) [] [] remaining ⟨ballots⟩
            (some e.election_state)
        some { e with election_state := st }

/-- Iterated `run_step`, with a round-indexed family of tie-break
choices standing for the stream of `random.choice` outcomes: round `k`
(counting from the current state) uses `pick k`. -/
def STV.run_steps : (ℕ → List String → String) → ℕ → STV → Option STV
  | _, 0, e => some e
  | pick, n + 1, e =>
    match e.run_step (pick 0) with
    | some e' => STV.run_steps (fun k => pick (k + 1)) n e'
    | none => none

/-- The list of records reachable from a record through `previous`
links, most recent first: the chain that `get_round_outcome` walks. -/
def ElectionState.chain : ElectionState → List ElectionState
  | .mk r e el rem p (some prev) => .mk r e el rem p (some prev) :: prev.chain
  | .mk r e el rem p none => [.mk r e el rem p none]

/-- The observable value, after a call to `run_step`, of the list object
that the *previous* current record's `remaining` field refers to.

In the Python source, `remaining = self.election_state.remaining`
(line 58) binds the same list object held by the current record, and
`remaining.remove(candidate)` (lines 77 and 95) mutates that object in
place; pydantic's `allow_mutation = False` does not prevent this.  So
after the call the old record's `remaining` shows the loop's final value
of the `remaining` variable in the threshold-elect and elimination
branches.  In the mass-elect branch `remaining = []` (line 68) rebinds
the local name without touching the object, and when `fp_votes[0]`
raises `IndexError` no mutation has happened yet, so in those cases the
old record's list is unchanged. -/
def STV.run_step_prev_remaining_after (pick : List String → String) (e : STV) :
    List String :=
  let remaining := e.election_state.remaining
  let ballots := e.election_state.profile.get_ballots
  let fp_votes := compute_votes remaining ballots
  if (remaining.length : ℤ) = e.seats - (e.election_state.get_all_winners.length : ℤ) then
    remaining
  else
    match fp_votes with
    | [] => remaining
    | top :: _ =>
      if (e.threshold : ℚ) ≤ top.2 then
        (elect_loop e.transfer fp_votes e.threshold remaining ballots).2.1
      else if (e.election_state.get_all_winners.length : ℤ) ≠ e.seats then
        let lp_votes := (fp_votes.map Prod.snd).foldl min top.2
        let lp_candidates := (fp_votes.filter (fun cv => cv.2 = lp_votes)).map Prod.fst
        remaining.erase (pick lp_candidates)
      else
        remaining

/-- The inductive invariant of a running fractional-transfer STV
election, relative to the initial total ballot weight `total0`: the
engine uses `fractional_transfer`; the threshold is at least `1` and
exceeds `total0/(seats+1)` (the Droop property); the seat count is
positive; all current ballot weights are non-negative; `remaining` is
duplicate-free and large enough to fill the still-open seats; the
winners never outnumber the seats; and the current total ballot weight
is at most `total0` minus the threshold for each winner already elected
(each election consumes at least a quota of weight). -/
def EngineInv (total0 : ℚ) (e : STV) : Prop :=
  e.transfer = fractional_transfer ∧
  1 ≤ e.threshold ∧
  0 < e.seats ∧
  (∀ b ∈ e.election_state.profile.ballots, 0 ≤ b.weight) ∧
  e.election_state.remaining.Nodup ∧
  e.seats - (e.election_state.get_all_winners.length : ℤ)
      ≤ (e.election_state.remaining.length : ℤ) ∧
  (e.election_state.get_all_winners.length : ℤ) ≤ e.seats ∧
  total0 < (e.threshold : ℚ) * ((e.seats : ℚ) + 1) ∧
  e.election_state.profile.num_ballots
      ≤ total0 - (e.threshold : ℚ) * (e.election_state.get_all_winners.length : ℚ)

/-!
## Basic facts about the helper functions
-/

theorem mem_pyDedup {a : String} : ∀ {l : List String}, a ∈ pyDedup l ↔ a ∈ l
  | [] => Iff.rfl
  | c :: rest => by
    by_cases hac : a = c
    · subst hac; simp [pyDedup]
    · simp only [pyDedup, List.mem_cons, List.mem_filter, hac, false_or,
        ne_eq, decide_not]
      rw [mem_pyDedup]
      simp [hac]

theorem pyDedup_nodup : ∀ l : List String, (pyDedup l).Nodup
  | [] => List.nodup_nil
  | c :: rest => by
    refine List.Nodup.cons ?_ ((pyDedup_nodup rest).filter _)
    intro hmem
    have := List.of_mem_filter hmem
    simp at this

theorem compute_votes_perm (candidates : List String) (ballots : List Ballot) :
    List.Perm (compute_votes candidates ballots)
      ((pyDedup candidates).map (fun c => (c, tallyOf c ballots))) :=
  List.perm_insertionSort _ _

theorem compute_votes_sorted (candidates : List String) (ballots : List Ballot) :
    List.Sorted voteOrder (compute_votes candidates ballots) :=
  List.sorted_insertionSort _ _

theorem compute_votes_entry {candidates : List String} {ballots : List Ballot}
    {cv : String × ℚ} (h : cv ∈ compute_votes candidates ballots) :
    cv.2 = tallyOf cv.1 ballots := by
  have := (compute_votes_perm candidates ballots).mem_iff.1 h
  obtain ⟨c, -, rfl⟩ := List.mem_map.1 this
  rfl

theorem compute_votes_keys (candidates : List String) (ballots : List Ballot) :
    List.Perm ((compute_votes candidates ballots).map Prod.fst) (pyDedup candidates) := by
  have h := (compute_votes_perm candidates ballots).map Prod.fst
  have e : (List.map (fun c => (c, tallyOf c ballots)) (pyDedup candidates)).map Prod.fst
      = pyDedup candidates := by
    simp [List.map_map, Function.comp_def]
  rwa [e] at h

theorem compute_votes_keys_nodup (candidates : List String) (ballots : List Ballot) :
    ((compute_votes candidates ballots).map Prod.fst).Nodup :=
  ((compute_votes_keys candidates ballots).nodup_iff).2 (pyDedup_nodup candidates)

theorem tallyOf_eq_sum_ite (c : String) (ballots : List Ballot) :
    tallyOf c ballots =
      (ballots.map (fun b => if firstIs c b then b.weight else 0)).sum := by
  induction ballots with
  | nil => rfl
  | cons b rest ih =>
    have key : tallyOf c (b :: rest) =
        (if firstIs c b then b.weight else 0) + tallyOf c rest := by
      by_cases h : firstIs c b = true <;> simp [tallyOf, List.filter_cons, h]
    rw [key, ih]
    simp

theorem firstIs_iff (c : String) (b : Ballot) :
    firstIs c b = true ↔ ∃ g t, b.ranking = g :: t ∧ c ∈ g ∧ ∀ x ∈ g, x = c := by
  rcases hb : b.ranking with - | ⟨g, t⟩
  · simp [firstIs, hb]
  · simp only [firstIs, hb, setEqB, Bool.and_eq_true, List.all_eq_true,
      List.mem_singleton, decide_eq_true_eq]
    constructor
    · rintro ⟨h1, h2⟩
      exact ⟨g, t, rfl, by simpa using h2 c (by simp), h1⟩
    · rintro ⟨g', t', heq, hc, hall⟩
      obtain ⟨rfl, rfl⟩ : g = g' ∧ t = t' := by
        injection heq with h1 h2
        exact ⟨h1, h2⟩
      refine ⟨hall, ?_⟩
      intro x hx
      have hxc : x = c := by simpa using hx
      subst hxc
      exact hc

/-!
## Claim C6 — behaviour of `remove_cand` on tie groups
-/

/-- C6, counterexample: the claim says `remove_cand(c, ballots)` leaves
`c` in no tie group of any returned ballot.  Removing `"A"` from a
ballot whose ranking is the single two-candidate tie group
`{"A", "B"}` keeps that group (the source compares each group to the
singleton set `{"A"}`, and `{"A", "B"} != {"A"}`), so `"A"` still
appears in a tie group of the result. -/
theorem remove_cand_multigroup_counterexample :
    ∃ b ∈ remove_cand "A" [⟨[["A", "B"]], 1⟩], ∃ g ∈ b.ranking, "A" ∈ g := by
  decide

/-- C6 (amended): for every candidate `c` and ballot list,
`remove_cand c ballots` returns the ballots in which exactly the tie
groups equal, as sets, to the singleton `{c}` are removed from each
ranking — a tie group containing `c` together with other candidates is
kept — while all other tie groups, their order, and all weights are
unchanged. -/
theorem remove_cand_removes_exactly_singleton_groups (c : String) (ballots : List Ballot) :
    List.Forall₂
      (fun b b' =>
        b'.weight = b.weight ∧
        b'.ranking = b.ranking.filter (fun g => !(setEqB g [c])) ∧
        ∀ g ∈ b'.ranking, setEqB g [c] = false)
      ballots (remove_cand c ballots) := by
  unfold remove_cand
  rw [List.forall₂_map_right_iff]
  refine List.forall₂_same.2 (fun b _ => ⟨rfl, rfl, ?_⟩)
  intro g hg
  have := List.of_mem_filter hg
  simpa using this

/-!
## Claim C10 — which ballots `compute_votes` credits
-/

/-- C10: `compute_votes` credits a ballot's weight to candidate `c` if
and only if the ballot's ranking is non-empty and its first tie group is
exactly the singleton set containing `c`: the tally of `c` is the sum,
over all ballots, of the weight when that condition holds and `0`
otherwise; a ballot whose first tie group contains two or more distinct
candidates contributes zero to every candidate; and each entry of
`compute_votes` carries exactly that tally, with one entry per distinct
listed candidate. -/
theorem compute_votes_credits :
    (∀ c b, firstIs c b = true ↔
        ∃ g t, b.ranking = g :: t ∧ c ∈ g ∧ ∀ x ∈ g, x = c) ∧
    (∀ c ballots, tallyOf c ballots =
        (ballots.map (fun b => if firstIs c b then b.weight else 0)).sum) ∧
    (∀ (b : Ballot) x y, x ∈ b.ranking.headD [] → y ∈ b.ranking.headD [] →
        x ≠ y → ∀ c, firstIs c b = false) ∧
    (∀ candidates ballots cv, cv ∈ compute_votes candidates ballots →
        cv.2 = tallyOf cv.1 ballots) ∧
    (∀ candidates ballots c,
        c ∈ (compute_votes candidates ballots).map Prod.fst ↔ c ∈ candidates) := by
  refine ⟨firstIs_iff, tallyOf_eq_sum_ite, ?_, fun _ _ _ h => compute_votes_entry h, ?_⟩
  · intro b x y hx hy hxy c
    rcases hb : b.ranking with - | ⟨g, t⟩
    · simp [firstIs, hb]
    · rw [hb] at hx hy
      simp only [List.headD_cons] at hx hy
      by_contra hIs
      rw [Bool.not_eq_false, firstIs_iff] at hIs
      obtain ⟨g', t', heq, -, hall⟩ := hIs
      rw [hb] at heq
      obtain rfl : g = g' := by injection heq
      exact hxy ((hall x hx).trans (hall y hy).symm)
  · intro candidates ballots c
    rw [(compute_votes_keys candidates ballots).mem_iff, mem_pyDedup]

/-- C10, witness: concrete evaluation of the credit rule.  On the ballot
list with one `"A"`-first ballot of weight `2` and one ballot whose first
tie group is `{"A", "B"}` of weight `5`, the tally of `"A"` is the sum
of the conditional credits (here `2`). -/
theorem compute_votes_credits_witness :
    tallyOf "A" [⟨[["A"]], 2⟩, ⟨[["A", "B"]], 5⟩] =
      ([⟨[["A"]], 2⟩, ⟨[["A", "B"]], (5 : ℚ)⟩].map
        (fun b => if firstIs "A" b then b.weight else 0)).sum :=
  compute_votes_credits.2.1 "A" _


/-!
## Branch-equation lemmas for `run_step`
-/

/-- The mass-elect branch of `run_step` (`election_types.py` lines 64-70). -/
theorem run_step_mass (pick : List String → String) (e : STV)
    (hmass : (e.election_state.remaining.length : ℤ)
        = e.seats - (e.election_state.get_all_winners.length : ℤ)) :
    STV.run_step pick e =
      some { e with
              election_state := ElectionState.mk (e.election_state.curr_round + 1)
                ((compute_votes e.election_state.remaining
                    e.election_state.profile.get_ballots).map Prod.fst)
                [] [] ⟨[]⟩ (some e.election_state) } := by
  unfold STV.run_step
  rw [if_pos hmass]

/-- The failure of `run_step`: with the mass-elect guard false and no
remaining candidates, `fp_votes[0]` on line 73 raises `IndexError`. -/
theorem run_step_fail (pick : List String → String) (e : STV)
    (hmass : ¬ (e.election_state.remaining.length : ℤ)
        = e.seats - (e.election_state.get_all_winners.length : ℤ))
    (hfp : compute_votes e.election_state.remaining
        e.election_state.profile.get_ballots = []) :
    STV.run_step pick e = none := by
  unfold STV.run_step
  rw [if_neg hmass]
  simp only [hfp]

/-- The threshold-elect branch of `run_step`
(`election_types.py` lines 72-83). -/
theorem run_step_elect (pick : List String → String) (e : STV)
    (top : String × ℚ) (rest : List (String × ℚ))
    (hmass : ¬ (e.election_state.remaining.length : ℤ)
        = e.seats - (e.election_state.get_all_winners.length : ℤ))
    (hfp : compute_votes e.election_state.remaining
        e.election_state.profile.get_ballots = top :: rest)
    (htop : (e.threshold : ℚ) ≤ top.2) :
    STV.run_step pick e =
      some { e with
              election_state := ElectionState.mk (e.election_state.curr_round + 1)
                (elect_loop e.transfer (top :: rest) e.threshold
                  e.election_state.remaining e.election_state.profile.get_ballots).1
                []
                (elect_loop e.transfer (top :: rest) e.threshold
                  e.election_state.remaining e.election_state.profile.get_ballots).2.1
                ⟨(elect_loop e.transfer (top :: rest) e.threshold
                  e.election_state.remaining e.election_state.profile.get_ballots).2.2⟩
                (some e.election_state) } := by
  unfold STV.run_step
  rw [if_neg hmass]
  simp only [hfp]
  rw [if_pos htop]

/-- The elimination branch of `run_step`
(`election_types.py` lines 84-95), with the outcome of `random.choice`
given by `pick`. -/
theorem run_step_eliminate (pick : List String → String) (e : STV)
    (top : String × ℚ) (rest : List (String × ℚ))
    (hmass : ¬ (e.election_state.remaining.length : ℤ)
        = e.seats - (e.election_state.get_all_winners.length : ℤ))
    (hfp : compute_votes e.election_state.remaining
        e.election_state.profile.get_ballots = top :: rest)
    (htop : ¬ (e.threshold : ℚ) ≤ top.2)
    (hnr : (e.election_state.get_all_winners.length : ℤ) ≠ e.seats) :
    STV.run_step pick e =
      some { e with
              election_state := ElectionState.mk (e.election_state.curr_round + 1)
                []
                [pick ((((top :: rest).filter
                    (fun cv => cv.2 = ((top :: rest).map Prod.snd).foldl min top.2)).map
                    Prod.fst))]
                (e.election_state.remaining.erase
                  (pick ((((top :: rest).filter
                    (fun cv => cv.2 = ((top :: rest).map Prod.snd).foldl min top.2)).map
                    Prod.fst))))
                ⟨remove_cand
                  (pick ((((top :: rest).filter
                    (fun cv => cv.2 = ((top :: rest).map Prod.snd).foldl min top.2)).map
                    Prod.fst)))
                  e.election_state.profile.get_ballots⟩
                (some e.election_state) } := by
  unfold STV.run_step
  rw [if_neg hmass]
  simp only [hfp]
  rw [if_neg htop, if_pos hnr]

/-- The fall-through of `run_step` (no branch taken: seats already
filled and nobody at quota): a record that repeats `remaining` and the
ballots. -/
theorem run_step_stall (pick : List String → String) (e : STV)
    (top : String × ℚ) (rest : List (String × ℚ))
    (hmass : ¬ (e.election_state.remaining.length : ℤ)
        = e.seats - (e.election_state.get_all_winners.length : ℤ))
    (hfp : compute_votes e.election_state.remaining
        e.election_state.profile.get_ballots = top :: rest)
    (htop : ¬ (e.threshold : ℚ) ≤ top.2)
    (hnr : ¬ (e.election_state.get_all_winners.length : ℤ) ≠ e.seats) :
    STV.run_step pick e =
      some { e with
              election_state := ElectionState.mk (e.election_state.curr_round + 1)
                [] [] e.election_state.remaining
                ⟨e.election_state.profile.get_ballots⟩
                (some e.election_state) } := by
  unfold STV.run_step
  rw [if_neg hmass]
  simp only [hfp]
  rw [if_neg htop, if_neg hnr]

/-- Every successful `run_step` leaves the engine's configuration
(threshold, seats, initial profile) unchanged, and the one new record it
constructs has the former current record as `previous` and carries the
next round number. -/
theorem run_step_preserves {pick : List String → String} {e e' : STV}
    (h : STV.run_step pick e = some e') :
    e'.threshold = e.threshold ∧ e'.seats = e.seats ∧
    e'.profile = e.profile ∧
    e'.election_state.previous = some e.election_state ∧
    e'.election_state.curr_round = e.election_state.curr_round + 1 := by
  by_cases hmass : (e.election_state.remaining.length : ℤ)
      = e.seats - (e.election_state.get_all_winners.length : ℤ)
  · rw [run_step_mass pick e hmass] at h
    cases h
    exact ⟨rfl, rfl, rfl, rfl, rfl⟩
  · rcases hfp : compute_votes e.election_state.remaining
        e.election_state.profile.get_ballots with - | ⟨top, rest⟩
    · rw [run_step_fail pick e hmass hfp] at h
      cases h
    · by_cases htop : (e.threshold : ℚ) ≤ top.2
      · rw [run_step_elect pick e top rest hmass hfp htop] at h
        cases h
        exact ⟨rfl, rfl, rfl, rfl, rfl⟩
      · by_cases hnr : (e.election_state.get_all_winners.length : ℤ) ≠ e.seats
        · rw [run_step_eliminate pick e top rest hmass hfp htop hnr] at h
          cases h
          exact ⟨rfl, rfl, rfl, rfl, rfl⟩
        · rw [run_step_stall pick e top rest hmass hfp htop hnr] at h
          cases h
          exact ⟨rfl, rfl, rfl, rfl, rfl⟩

/-!
## Claim C3 — the Droop quota
-/

/-- C3: for every engine built from a profile with non-negative total
ballot weight and a positive seat count, the cached threshold is exactly
`floor(total_ballot_weight / (seats + 1)) + 1` computed from the initial
profile (the `int(...)` cast truncates toward zero, which on the
non-negative operand is the floor); and no successful `run_step` ever
changes the cached threshold, so it is fixed for all later rounds. -/
theorem droop_threshold (profile : PreferenceProfile)
    (transfer : String → List Ballot → List (String × ℚ) → ℤ → List Ballot)
    (seats : ℤ) (hseats : 0 < seats) (hw : 0 ≤ profile.num_ballots) :
    (STV.init profile transfer seats).threshold
        = ⌊profile.num_ballots / ((seats : ℚ) + 1)⌋ + 1 ∧
    ∀ (pick : List String → String) (e e' : STV),
      STV.run_step pick e = some e' → e'.threshold = e.threshold := by
  constructor
  · have hs1 : (0 : ℚ) ≤ (seats : ℚ) + 1 := by
      have : (1 : ℚ) ≤ (seats : ℚ) := by exact_mod_cast hseats
      linarith
    have hdiv : (0 : ℚ) ≤ profile.num_ballots / ((seats : ℚ) + 1) :=
      div_nonneg hw hs1
    show pyInt (profile.num_ballots / ((seats : ℚ) + 1) + 1) = _
    rw [pyInt, if_pos (by linarith), Int.floor_add_one]
  · intro pick e e' h
    exact (run_step_preserves h).1

/-- C3, witness: a profile of one ballot of weight `3` and one seat
gives threshold `⌊3/2⌋ + 1 = 2`. -/
theorem droop_threshold_witness :
    (STV.init ⟨[⟨[["A"]], 3⟩]⟩ fractional_transfer 1).threshold
        = ⌊(⟨[⟨[["A"]], 3⟩]⟩ : PreferenceProfile).num_ballots / (((1 : ℤ) : ℚ) + 1)⌋ + 1 :=
  (droop_threshold ⟨[⟨[["A"]], 3⟩]⟩ fractional_transfer 1 (by norm_num)
    (by norm_num [PreferenceProfile.num_ballots])).1

/-!
## Claim C4 — conservation of the fractional transfer
-/

/-- Summing a function of the second components of `l.zip (l.map f)`
over the pairs whose first component satisfies `P` is summing
`fun b => w (f b)` over the members of `l` satisfying `P`. -/
theorem zip_map_filter_weight_sum (f : Ballot → Ballot) (P : Ballot → Bool) :
    ∀ l : List Ballot,
      (((l.zip (l.map f)).filter (fun p => P p.1)).map (fun p => p.2.weight)).sum
        = ((l.filter P).map (fun b => (f b).weight)).sum
  | [] => rfl
  | b :: rest => by
    by_cases h : P b = true <;>
      simp [List.filter_cons, h, zip_map_filter_weight_sum f P rest]

/-- C4: when the winner's recorded tally `votes[winner]` equals the
actual first-place weight of the winner, is at least the threshold and
is strictly positive, `fractional_transfer` scales the weight of exactly
the ballots whose first preference is the winner by
`(votes[winner] - threshold) / votes[winner]` (all other ballots keep
their weight, and the winner's singleton tie groups are then removed),
and the post-transfer weights of those ballots sum to exactly
`votes[winner] - threshold` — no rounding error, by exact rational
arithmetic. -/
theorem fractional_transfer_conservation (winner : String) (ballots : List Ballot)
    (votes : List (String × ℚ)) (threshold : ℤ) (v : ℚ)
    (hv : dictGet votes winner = v)
    (htally : tallyOf winner ballots = v)
    (hthr : (threshold : ℚ) ≤ v) (hpos : 0 < v) :
    fractional_transfer winner ballots votes threshold
        = remove_cand winner (ballots.map (fun b =>
            if firstIs winner b then
              { b with weight := b.weight * ((v - threshold) / v) }
            else b)) ∧
    (((ballots.zip (fractional_transfer winner ballots votes threshold)).filter
        (fun p => firstIs winner p.1)).map (fun p => p.2.weight)).sum
      = v - threshold := by
  have hval : fractional_transfer winner ballots votes threshold
      = remove_cand winner (ballots.map (fun b =>
          if firstIs winner b then
            { b with weight := b.weight * ((v - threshold) / v) } else b)) := by
    unfold fractional_transfer
    rw [hv]
  refine ⟨hval, ?_⟩
  rw [hval]
  unfold remove_cand
  rw [List.map_map]
  rw [zip_map_filter_weight_sum]
  have hcong : ((ballots.filter (firstIs winner)).map
      (fun b => (((fun b : Ballot => { b with ranking := b.ranking.filter (fun g => !(setEqB g [winner])) }) ∘ (fun b : Ballot => if firstIs winner b then { b with weight := b.weight * ((v - threshold) / v) } else b)) b).weight))
      = ((ballots.filter (firstIs winner)).map
          (fun b => b.weight * ((v - threshold) / v))) := by
    refine List.map_congr_left ?_
    intro b hb
    have hP : firstIs winner b = true := List.of_mem_filter hb
    simp [Function.comp_def, hP]
  rw [hcong, List.sum_map_mul_right]
  have : ((ballots.filter (firstIs winner)).map Ballot.weight).sum = v := htally
  rw [this, mul_comm, div_mul_cancel₀ _ (ne_of_gt hpos)]

unseal Rat.add Rat.mul Rat.inv Rat.sub in
/-- C4, witness: winner `"A"` with tally `4`, threshold `2`: the two
`"A"`-first ballots of weights `3` and `1` are scaled by `1/2` and their
post-transfer weights sum to `4 - 2 = 2`. -/
theorem fractional_transfer_conservation_witness :
    List.sum (List.map (fun p => p.2.weight)
      (List.filter (fun p => firstIs "A" p.1)
        (List.zip ([⟨[["A"], ["B"]], 3⟩, ⟨[["B"]], 5⟩, ⟨[["A"]], 1⟩] : List Ballot)
          (fractional_transfer "A" [⟨[["A"], ["B"]], 3⟩, ⟨[["B"]], 5⟩, ⟨[["A"]], 1⟩]
            [("A", 4), ("B", 5)] 2))))
      = (4 : ℚ) - ((2 : ℤ) : ℚ) :=
  (fractional_transfer_conservation "A"
    [⟨[["A"], ["B"]], 3⟩, ⟨[["B"]], 5⟩, ⟨[["A"]], 1⟩] [("A", 4), ("B", 5)] 2 4
    (by decide) (by decide) (by decide) (by decide)).2

/-!
## Claim C8 — `get_round_outcome` walks the chain
-/

/-- C8: for every record chain and round number `n`,
`get_round_outcome n` returns a result exactly when some record of the
chain has `curr_round = n`: a successful lookup returns the `elected`
and `eliminated` of such a record, and when the chain is exhausted
without a match — in particular for every out-of-range `n` — it fails
(`none` embeds the `ValueError` the Python raises, the spec's
`RoundNotFoundError`). -/
theorem get_round_outcome_spec : ∀ (s : ElectionState) (n : ℤ),
    (s.get_round_outcome n = none ↔ ∀ r ∈ s.chain, r.curr_round ≠ n) ∧
    (∀ el elim, s.get_round_outcome n = some (el, elim) →
        ∃ r ∈ s.chain, r.curr_round = n ∧ r.elected = el ∧ r.eliminated = elim)
  | .mk r e el rem p prev, n => by
    rcases prev with - | prev
    · constructor
      · simp only [ElectionState.get_round_outcome, ElectionState.chain]
        constructor
        · intro hnone r' hr'
          rcases List.mem_singleton.1 hr' with rfl
          intro hr
          rw [ElectionState.curr_round] at hr
          rw [if_pos hr] at hnone
          cases hnone
        · intro hall
          have := hall _ (List.mem_singleton.2 rfl)
          rw [ElectionState.curr_round] at this
          rw [if_neg this]
      · intro el' elim' hsome
        simp only [ElectionState.get_round_outcome] at hsome
        by_cases hr : r = n
        · rw [if_pos hr] at hsome
          obtain ⟨rfl, rfl⟩ : e = el' ∧ el = elim' := by
            injection hsome with h'
            injection h' with h1 h2
            exact ⟨h1, h2⟩
          exact ⟨_, List.mem_singleton.2 rfl, hr, rfl, rfl⟩
        · rw [if_neg hr] at hsome
          cases hsome
    · have ih := get_round_outcome_spec prev n
      constructor
      · simp only [ElectionState.get_round_outcome, ElectionState.chain]
        by_cases hr : r = n
        · rw [if_pos hr]
          constructor
          · intro hc
            cases hc
          · intro hall
            exact absurd (by rw [ElectionState.curr_round]; exact hr)
              (hall _ (List.mem_cons_self _ _))
        · rw [if_neg hr]
          rw [ih.1]
          constructor
          · intro hall r' hr'
            rcases List.mem_cons.1 hr' with rfl | hmem
            · rw [ElectionState.curr_round]; exact hr
            · exact hall r' hmem
          · intro hall r' hr'
            exact hall r' (List.mem_cons_of_mem _ hr')
      · intro el' elim' hsome
        simp only [ElectionState.get_round_outcome] at hsome
        by_cases hr : r = n
        · rw [if_pos hr] at hsome
          obtain ⟨rfl, rfl⟩ : e = el' ∧ el = elim' := by
            injection hsome with h'
            injection h' with h1 h2
            exact ⟨h1, h2⟩
          exact ⟨_, List.mem_cons_self _ _, hr, rfl, rfl⟩
        · rw [if_neg hr] at hsome
          obtain ⟨r', hmem, hcr, hel, helim⟩ := ih.2 el' elim' hsome
          exact ⟨r', List.mem_cons_of_mem _ hmem, hcr, hel, helim⟩

/-- C8, witness: on the two-record chain (round 1 over round 0), the
lookup of round `0` succeeds with round 0's outcome, witnessed through
the specification theorem, and the lookup of round `5` returns `none`. -/
theorem get_round_outcome_spec_witness :
    (∃ r ∈ (ElectionState.mk 1 ["A"] ["B"] [] ⟨[]⟩
        (some (.mk 0 [] ["C"] [] ⟨[]⟩ none))).chain,
      r.curr_round = 0 ∧ r.elected = [] ∧ r.eliminated = ["C"]) ∧
    (ElectionState.mk 1 ["A"] ["B"] [] ⟨[]⟩
        (some (.mk 0 [] ["C"] [] ⟨[]⟩ none))).get_round_outcome 5 = none :=
  ⟨(get_round_outcome_spec (ElectionState.mk 1 ["A"] ["B"] [] ⟨[]⟩
        (some (.mk 0 [] ["C"] [] ⟨[]⟩ none))) 0).2 [] ["C"] (by decide),
   (get_round_outcome_spec (ElectionState.mk 1 ["A"] ["B"] [] ⟨[]⟩
        (some (.mk 0 [] ["C"] [] ⟨[]⟩ none))) 5).1.2 (by decide)⟩

/-!
## Claims C5 and C2 — the elect branches of `run_step`
-/

theorem pyDedup_eq_self : ∀ {l : List String}, l.Nodup → pyDedup l = l
  | [], _ => rfl
  | c :: rest, h => by
    obtain ⟨hc, hrest⟩ := List.nodup_cons.1 h
    rw [pyDedup, pyDedup_eq_self hrest, List.filter_eq_self.2]
    intro a ha
    simp only [ne_eq, decide_not, Bool.not_eq_true', decide_eq_false_iff_not]
    rintro rfl
    exact hc ha

/-- C5: in every round where the number of remaining candidates equals
the number of seats minus the number of candidates elected in all prior
rounds, `run_step` succeeds and elects exactly the remaining candidates
(their list is a permutation of `remaining`), and the new record has an
empty `remaining` and an empty ballot list. -/
theorem mass_elect_round (pick : List String → String) (e : STV)
    (hnodup : e.election_state.remaining.Nodup)
    (hmass : (e.election_state.remaining.length : ℤ)
        = e.seats - (e.election_state.get_all_winners.length : ℤ)) :
    ∃ e', STV.run_step pick e = some e' ∧
      List.Perm e'.election_state.elected e.election_state.remaining ∧
      e'.election_state.remaining = [] ∧
      e'.election_state.profile.ballots = [] ∧
      e'.election_state.eliminated = [] := by
  refine ⟨_, run_step_mass pick e hmass, ?_, rfl, rfl, rfl⟩
  show List.Perm ((compute_votes e.election_state.remaining
      e.election_state.profile.get_ballots).map Prod.fst) e.election_state.remaining
  have hk := compute_votes_keys e.election_state.remaining
    e.election_state.profile.get_ballots
  rwa [pyDedup_eq_self hnodup] at hk

unseal Rat.add Rat.mul Rat.inv Rat.sub in
/-- C5, witness: two candidates, two seats, nobody elected yet: the
mass-elect round elects both and clears `remaining` and the ballots. -/
theorem mass_elect_round_witness :
    ∃ e', STV.run_step (fun l => l.headD "")
        (STV.init ⟨[⟨[["A"]], 1⟩, ⟨[["B"]], 1⟩]⟩ fractional_transfer 2) = some e' ∧
      List.Perm e'.election_state.elected
        (STV.init ⟨[⟨[["A"]], 1⟩, ⟨[["B"]], 1⟩]⟩
          fractional_transfer 2).election_state.remaining ∧
      e'.election_state.remaining = [] ∧
      e'.election_state.profile.ballots = [] ∧
      e'.election_state.eliminated = [] :=
  mass_elect_round (fun l => l.headD "")
    (STV.init ⟨[⟨[["A"]], 1⟩, ⟨[["B"]], 1⟩]⟩ fractional_transfer 2)
    (by decide) (by decide)

/-- Unfolding the threshold-elect loop: it elects, in the order and with
the tallies of `fp_votes`, exactly the entries at or above the
threshold; removes each elected candidate from `remaining` in turn; and
threads the ballots through the transfer capability sequentially, always
passing the same tally list `dict`. -/
theorem elect_loop_unfold
    (transfer : String → List Ballot → List (String × ℚ) → ℤ → List Ballot)
    (dict : List (String × ℚ)) (t : ℤ) :
    ∀ (fp : List (String × ℚ)) (el0 : List String) (rem : List String)
      (bs : List Ballot),
      fp.foldl (elect_step transfer dict t) (el0, rem, bs)
        = (el0 ++ (fp.filter (fun cv => (t : ℚ) ≤ cv.2)).map Prod.fst,
           ((fp.filter (fun cv => (t : ℚ) ≤ cv.2)).map Prod.fst).foldl
             (fun r c => r.erase c) rem,
           ((fp.filter (fun cv => (t : ℚ) ≤ cv.2)).map Prod.fst).foldl
             (fun b c => transfer c b dict t) bs)
  | [], el0, rem, bs => by simp
  | cv :: fp, el0, rem, bs => by
    rw [List.foldl_cons]
    by_cases h : (t : ℚ) ≤ cv.2
    · have hstep : elect_step transfer dict t (el0, rem, bs) cv
          = (el0 ++ [cv.1], rem.erase cv.1, transfer cv.1 bs dict t) := by
        simp [elect_step, h]
      rw [hstep, elect_loop_unfold transfer dict t fp (el0 ++ [cv.1]) (rem.erase cv.1)
        (transfer cv.1 bs dict t)]
      simp [List.filter_cons, h, List.append_assoc]
    · have hstep : elect_step transfer dict t (el0, rem, bs) cv = (el0, rem, bs) := by
        simp [elect_step, h]
      rw [hstep, elect_loop_unfold transfer dict t fp el0 rem bs]
      simp [List.filter_cons, h]

theorem perm_foldl_erase :
    ∀ (cs rem : List String), cs.Nodup → (∀ c ∈ cs, c ∈ rem) →
      List.Perm rem (cs ++ cs.foldl (fun r c => r.erase c) rem)
  | [], rem, _, _ => by simp
  | c :: cs, rem, hnd, hsub => by
    have hc : c ∈ rem := hsub c (List.mem_cons_self _ _)
    obtain ⟨hcn, hcs⟩ := List.nodup_cons.1 hnd
    have hsub' : ∀ d ∈ cs, d ∈ rem.erase c := by
      intro d hd
      have hdc : d ≠ c := fun h => hcn (h ▸ hd)
      exact (List.mem_erase_of_ne hdc).2 (hsub d (List.mem_cons_of_mem _ hd))
    refine (List.perm_cons_erase hc).trans ?_
    refine (List.Perm.cons c (perm_foldl_erase cs (rem.erase c) hcs hsub')).trans ?_
    exact List.Perm.refl _

/-- C2: in every round where the mass-elect condition does not hold and
the leading tally is at least the threshold, `run_step` succeeds and:
the candidates elected this round are exactly the entries of the
pre-round tally at or above the threshold, kept in the tally's
descending order; the new ballots are obtained by applying the transfer
capability sequentially for each winner, passing the same pre-round
tally list every time; each elected candidate is removed from
`remaining` (the old `remaining` is a permutation of the elected
candidates together with the new one); and nobody is eliminated. -/
theorem threshold_elect_round (pick : List String → String) (e : STV)
    (top : String × ℚ) (rest : List (String × ℚ))
    (hmass : ¬ (e.election_state.remaining.length : ℤ)
        = e.seats - (e.election_state.get_all_winners.length : ℤ))
    (hfp : compute_votes e.election_state.remaining
        e.election_state.profile.get_ballots = top :: rest)
    (htop : (e.threshold : ℚ) ≤ top.2) :
    ∃ e', STV.run_step pick e = some e' ∧
      e'.election_state.elected
        = ((top :: rest).filter (fun cv => (e.threshold : ℚ) ≤ cv.2)).map Prod.fst ∧
      List.Sorted voteOrder ((top :: rest).filter (fun cv => (e.threshold : ℚ) ≤ cv.2)) ∧
      e'.election_state.profile.ballots
        = (((top :: rest).filter (fun cv => (e.threshold : ℚ) ≤ cv.2)).map Prod.fst).foldl
            (fun bs c => e.transfer c bs (top :: rest) e.threshold)
            e.election_state.profile.get_ballots ∧
      e'.election_state.remaining
        = (((top :: rest).filter (fun cv => (e.threshold : ℚ) ≤ cv.2)).map Prod.fst).foldl
            (fun r c => r.erase c) e.election_state.remaining ∧
      List.Perm e.election_state.remaining
        (e'.election_state.elected ++ e'.election_state.remaining) ∧
      e'.election_state.eliminated = [] := by
  refine ⟨_, run_step_elect pick e top rest hmass hfp htop, ?_⟩
  have hloop := elect_loop_unfold e.transfer (top :: rest) e.threshold (top :: rest)
    [] e.election_state.remaining e.election_state.profile.get_ballots
  rw [elect_loop, hloop]
  have hsorted : List.Sorted voteOrder
      ((top :: rest).filter (fun cv => (e.threshold : ℚ) ≤ cv.2)) := by
    have := compute_votes_sorted e.election_state.remaining
      e.election_state.profile.get_ballots
    rw [hfp] at this
    exact this.filter _
  have hkeys : List.Perm ((top :: rest).map Prod.fst)
      (pyDedup e.election_state.remaining) := by
    have := compute_votes_keys e.election_state.remaining
      e.election_state.profile.get_ballots
    rwa [hfp] at this
  have hkeysnodup : ((top :: rest).map Prod.fst).Nodup := by
    have := compute_votes_keys_nodup e.election_state.remaining
      e.election_state.profile.get_ballots
    rwa [hfp] at this
  have helnodup : (((top :: rest).filter
      (fun cv => (e.threshold : ℚ) ≤ cv.2)).map Prod.fst).Nodup :=
    hkeysnodup.sublist ((List.filter_sublist _).map Prod.fst)
  have helsub : ∀ c ∈ ((top :: rest).filter
      (fun cv => (e.threshold : ℚ) ≤ cv.2)).map Prod.fst,
      c ∈ e.election_state.remaining := by
    intro c hcmem
    have h1 : c ∈ (top :: rest).map Prod.fst :=
      ((List.filter_sublist _).map Prod.fst).subset hcmem
    have h2 : c ∈ pyDedup e.election_state.remaining := hkeys.subset h1
    exact mem_pyDedup.1 h2
  exact ⟨rfl, hsorted, rfl, rfl,
    perm_foldl_erase _ _ helnodup helsub, rfl⟩

unseal Rat.add Rat.mul Rat.inv Rat.sub in
/-- C2, witness: one seat, tallies `A = 2 ≥ 2 = threshold > 1 = B`: the
round elects exactly `A` with the pre-round tally, transfers once, and
removes `A` from `remaining`. -/
theorem threshold_elect_round_witness :
    ∃ e', STV.run_step (fun l => l.headD "")
        (STV.init ⟨[⟨[["A"], ["B"]], 2⟩, ⟨[["B"], ["A"]], 1⟩]⟩ fractional_transfer 1)
        = some e' ∧
      e'.election_state.elected
        = ([("A", 2), ("B", 1)].filter (fun cv =>
            (((STV.init ⟨[⟨[["A"], ["B"]], 2⟩, ⟨[["B"], ["A"]], 1⟩]⟩
                fractional_transfer 1).threshold : ℚ) ≤ cv.2))).map Prod.fst ∧
      List.Sorted voteOrder ([("A", 2), ("B", 1)].filter (fun cv =>
          (((STV.init ⟨[⟨[["A"], ["B"]], 2⟩, ⟨[["B"], ["A"]], 1⟩]⟩
              fractional_transfer 1).threshold : ℚ) ≤ cv.2))) ∧
      e'.election_state.profile.ballots
        = (([("A", 2), ("B", 1)].filter (fun cv =>
            (((STV.init ⟨[⟨[["A"], ["B"]], 2⟩, ⟨[["B"], ["A"]], 1⟩]⟩
                fractional_transfer 1).threshold : ℚ) ≤ cv.2))).map Prod.fst).foldl
            (fun bs c => (STV.init ⟨[⟨[["A"], ["B"]], 2⟩, ⟨[["B"], ["A"]], 1⟩]⟩
                fractional_transfer 1).transfer c bs [("A", 2), ("B", 1)]
              (STV.init ⟨[⟨[["A"], ["B"]], 2⟩, ⟨[["B"], ["A"]], 1⟩]⟩
                fractional_transfer 1).threshold)
            (STV.init ⟨[⟨[["A"], ["B"]], 2⟩, ⟨[["B"], ["A"]], 1⟩]⟩
              fractional_transfer 1).election_state.profile.get_ballots ∧
      e'.election_state.remaining
        = (([("A", 2), ("B", 1)].filter (fun cv =>
            (((STV.init ⟨[⟨[["A"], ["B"]], 2⟩, ⟨[["B"], ["A"]], 1⟩]⟩
                fractional_transfer 1).threshold : ℚ) ≤ cv.2))).map Prod.fst).foldl
            (fun r c => r.erase c)
            (STV.init ⟨[⟨[["A"], ["B"]], 2⟩, ⟨[["B"], ["A"]], 1⟩]⟩
              fractional_transfer 1).election_state.remaining ∧
      List.Perm (STV.init ⟨[⟨[["A"], ["B"]], 2⟩, ⟨[["B"], ["A"]], 1⟩]⟩
          fractional_transfer 1).election_state.remaining
        (e'.election_state.elected ++ e'.election_state.remaining) ∧
      e'.election_state.eliminated = [] :=
  threshold_elect_round (fun l => l.headD "")
    (STV.init ⟨[⟨[["A"], ["B"]], 2⟩, ⟨[["B"], ["A"]], 1⟩]⟩ fractional_transfer 1)
    ("A", 2) [("B", 1)] (by decide) (by decide) (by decide)

/-!
## Claim C1 — the frame effect of `run_step` on earlier records
-/

unseal Rat.add Rat.mul Rat.inv Rat.sub in
/-- C1, failing input: on the election with ballots
`A > B` (weight 2) and `B > A` (weight 1) and one seat, the first
`run_step` call takes the threshold-elect branch (threshold 2, tally of
`A` is 2) and succeeds, appending one record — but it also mutates the
*previous* (round-0) record in place: that record's `remaining` list
object, built as `["A", "B"]`, reads `["B"]` after the call, because
line 77 of `election_types.py` calls `remove` on the very list the old
record holds.  So the claim that no previously constructed record is
observably changed fails on this input. -/
theorem run_step_mutates_previous_record :
    (STV.init ⟨[⟨[["A"], ["B"]], 2⟩, ⟨[["B"], ["A"]], 1⟩]⟩
        fractional_transfer 1).election_state.remaining = ["A", "B"] ∧
    (STV.run_step (fun l => l.headD "")
        (STV.init ⟨[⟨[["A"], ["B"]], 2⟩, ⟨[["B"], ["A"]], 1⟩]⟩
          fractional_transfer 1)).isSome = true ∧
    STV.run_step_prev_remaining_after (fun l => l.headD "")
        (STV.init ⟨[⟨[["A"], ["B"]], 2⟩, ⟨[["B"], ["A"]], 1⟩]⟩
          fractional_transfer 1) = ["B"] := by
  decide

/-!
## Claim C7 — `rankings()` is a permutation of the initial candidates
-/

theorem nodup_foldl_erase :
    ∀ (cs rem : List String), rem.Nodup →
      (cs.foldl (fun r c => r.erase c) rem).Nodup
  | [], _, h => h
  | c :: cs, rem, h => nodup_foldl_erase cs _ (h.erase c)

theorem foldl_min_mem : ∀ (l : List ℚ) (a : ℚ), l.foldl min a = a ∨ l.foldl min a ∈ l
  | [], _ => .inl rfl
  | b :: l, a => by
    rw [List.foldl_cons]
    rcases foldl_min_mem l (min a b) with h | h
    · rcases min_choice a b with h' | h'
      · exact .inl (h.trans h')
      · right
        rw [h, h']
        exact List.mem_cons_self _ _
    · exact .inr (List.mem_cons_of_mem _ h)

/-- The tie-break pool of the elimination branch is never empty: the
minimum of the tallies is attained by some entry. -/
theorem lp_candidates_ne_nil (top : String × ℚ) (rest : List (String × ℚ)) :
    (((top :: rest).filter
        (fun cv => cv.2 = ((top :: rest).map Prod.snd).foldl min top.2)).map
      Prod.fst) ≠ [] := by
  have hmem : ∃ cv ∈ top :: rest,
      cv.2 = ((top :: rest).map Prod.snd).foldl min top.2 := by
    rcases foldl_min_mem ((top :: rest).map Prod.snd) top.2 with h | h
    · exact ⟨top, List.mem_cons_self _ _, h.symm⟩
    · obtain ⟨cv, hcv, hval⟩ := List.mem_map.1 h
      exact ⟨cv, hcv, hval⟩
  obtain ⟨cv, hcv, hval⟩ := hmem
  have : cv ∈ (top :: rest).filter
      (fun cv => cv.2 = ((top :: rest).map Prod.snd).foldl min top.2) :=
    List.mem_filter.2 ⟨hcv, by simpa using hval⟩
  exact List.ne_nil_of_mem (List.mem_map_of_mem Prod.fst this)

/-- Members of the tie-break pool are remaining candidates. -/
theorem lp_candidates_subset {e : STV} {top : String × ℚ} {rest : List (String × ℚ)}
    (hfp : compute_votes e.election_state.remaining
        e.election_state.profile.get_ballots = top :: rest) :
    ∀ c ∈ (((top :: rest).filter
        (fun cv => cv.2 = ((top :: rest).map Prod.snd).foldl min top.2)).map
      Prod.fst), c ∈ e.election_state.remaining := by
  intro c hc
  obtain ⟨cv, hcvmem, rfl⟩ := List.mem_map.1 hc
  have h1 : cv ∈ top :: rest := List.mem_of_mem_filter hcvmem
  have h2 : cv.1 ∈ (top :: rest).map Prod.fst := List.mem_map_of_mem Prod.fst h1
  have hkeys := compute_votes_keys e.election_state.remaining
    e.election_state.profile.get_ballots
  rw [hfp] at hkeys
  exact mem_pyDedup.1 (hkeys.subset h2)

/-- One `run_step` preserves the multiset of candidates in
`get_rankings` and keeps `remaining` duplicate-free, provided the
tie-break choice returns a member of its pool. -/
theorem rankings_step {pick : List String → String} {e e' : STV}
    (hpick : ∀ l, l ≠ [] → pick l ∈ l)
    (hnodup : e.election_state.remaining.Nodup)
    (h : STV.run_step pick e = some e') :
    List.Perm e'.election_state.get_rankings e.election_state.get_rankings ∧
    e'.election_state.remaining.Nodup := by
  by_cases hmass : (e.election_state.remaining.length : ℤ)
      = e.seats - (e.election_state.get_all_winners.length : ℤ)
  · rw [run_step_mass pick e hmass] at h
    cases h
    have hperm : List.Perm ((compute_votes e.election_state.remaining
        e.election_state.profile.get_ballots).map Prod.fst)
        e.election_state.remaining := by
      have hk := compute_votes_keys e.election_state.remaining
        e.election_state.profile.get_ballots
      rwa [pyDedup_eq_self hnodup] at hk
    constructor
    · simp only [ElectionState.get_rankings, ElectionState.get_all_winners,
        ElectionState.get_all_eliminated, ElectionState.remaining,
        ElectionState.elected, ElectionState.eliminated, List.reverse_nil,
        List.nil_append, List.append_nil, List.append_assoc]
      exact List.Perm.append_left _ (hperm.append_right _)
    · exact List.nodup_nil
  · rcases hfp : compute_votes e.election_state.remaining
        e.election_state.profile.get_ballots with - | ⟨top, rest⟩
    · rw [run_step_fail pick e hmass hfp] at h
      cases h
    · by_cases htop : (e.threshold : ℚ) ≤ top.2
      · rw [run_step_elect pick e top rest hmass hfp htop] at h
        cases h
        have hkeys : List.Perm ((top :: rest).map Prod.fst)
            (pyDedup e.election_state.remaining) := by
          have := compute_votes_keys e.election_state.remaining
            e.election_state.profile.get_ballots
          rwa [hfp] at this
        have hkeysnodup : ((top :: rest).map Prod.fst).Nodup := by
          have := compute_votes_keys_nodup e.election_state.remaining
            e.election_state.profile.get_ballots
          rwa [hfp] at this
        have helnodup : (((top :: rest).filter
            (fun cv => (e.threshold : ℚ) ≤ cv.2)).map Prod.fst).Nodup :=
          hkeysnodup.sublist ((List.filter_sublist _).map Prod.fst)
        have helsub : ∀ c ∈ ((top :: rest).filter
            (fun cv => (e.threshold : ℚ) ≤ cv.2)).map Prod.fst,
            c ∈ e.election_state.remaining := by
          intro c hcmem
          have h1 : c ∈ (top :: rest).map Prod.fst :=
            ((List.filter_sublist _).map Prod.fst).subset hcmem
          exact mem_pyDedup.1 (hkeys.subset h1)
        have hsplit := perm_foldl_erase _ e.election_state.remaining helnodup helsub
        constructor
        · simp only [ElectionState.get_rankings, ElectionState.get_all_winners,
            ElectionState.get_all_eliminated, ElectionState.remaining,
            ElectionState.elected, ElectionState.eliminated, elect_loop,
            elect_loop_unfold, List.reverse_nil, List.nil_append, List.append_nil,
            List.append_assoc]
          refine List.Perm.append_left _ ?_
          rw [← List.append_assoc]
          exact (hsplit.append_right _).symm
        · simp only [ElectionState.remaining, elect_loop, elect_loop_unfold,
            List.nil_append]
          exact nodup_foldl_erase _ _ hnodup
      · by_cases hnr : (e.election_state.get_all_winners.length : ℤ) ≠ e.seats
        · rw [run_step_eliminate pick e top rest hmass hfp htop hnr] at h
          cases h
          have hlpmem : pick (((top :: rest).filter
              (fun cv => cv.2 = ((top :: rest).map Prod.snd).foldl min top.2)).map
                Prod.fst) ∈ e.election_state.remaining :=
            lp_candidates_subset hfp _ (hpick _ (lp_candidates_ne_nil top rest))
          constructor
          · simp only [ElectionState.get_rankings, ElectionState.get_all_winners,
              ElectionState.get_all_eliminated, ElectionState.remaining,
              ElectionState.elected, ElectionState.eliminated, List.reverse_cons,
              List.reverse_nil, List.nil_append, List.append_nil,
              List.append_assoc, List.singleton_append]
            refine List.Perm.append_left _ ?_
            exact List.perm_middle.trans
              (((List.perm_cons_erase hlpmem).append_right _).symm)
          · exact hnodup.erase _
        · rw [run_step_stall pick e top rest hmass hfp htop hnr] at h
          cases h
          constructor
          · simp only [ElectionState.get_rankings, ElectionState.get_all_winners,
              ElectionState.get_all_eliminated, ElectionState.remaining,
              ElectionState.elected, ElectionState.eliminated, List.reverse_nil,
              List.nil_append, List.append_nil, List.append_assoc]
            exact List.Perm.refl _
          · exact hnodup

/-- Iterating `run_step` preserves the multiset of ranked candidates and
duplicate-freeness of `remaining`. -/
theorem rankings_steps_aux :
    ∀ (n : ℕ) (pick : ℕ → List String → String),
      (∀ k l, l ≠ [] → pick k l ∈ l) →
      ∀ (e e' : STV), e.election_state.remaining.Nodup →
        STV.run_steps pick n e = some e' →
        List.Perm e'.election_state.get_rankings e.election_state.get_rankings ∧
        e'.election_state.remaining.Nodup
  | 0, pick, _, e, e', hnodup, h => by
    cases h
    exact ⟨List.Perm.refl _, hnodup⟩
  | n + 1, pick, hpick, e, e', hnodup, h => by
    rcases hstep : STV.run_step (pick 0) e with - | e1
    · rw [STV.run_steps, hstep] at h
      cases h
    · rw [STV.run_steps, hstep] at h
      obtain ⟨hperm1, hnodup1⟩ := rankings_step (hpick 0) hnodup hstep
      obtain ⟨hperm2, hnodup2⟩ := rankings_steps_aux n (fun k => pick (k + 1))
        (fun k => hpick (k + 1)) e1 e' hnodup1 h
      exact ⟨hperm2.trans hperm1, hnodup2⟩

/-- C7: after every round of every election (any number of successful
`run_step` calls from a fresh engine, under any valid tie-break
choices), the current record's `get_rankings` — all winners, then
`remaining`, then all eliminated — is a permutation of the full initial
candidate set, and the three block lengths sum to the number of initial
candidates. -/
theorem rankings_permutation (p : PreferenceProfile)
    (transfer : String → List Ballot → List (String × ℚ) → ℤ → List Ballot)
    (seats : ℤ) (pick : ℕ → List String → String)
    (hpick : ∀ k l, l ≠ [] → pick k l ∈ l)
    (n : ℕ) (e' : STV)
    (h : STV.run_steps pick n (STV.init p transfer seats) = some e') :
    List.Perm e'.election_state.get_rankings p.get_candidates ∧
    e'.election_state.get_all_winners.length + e'.election_state.remaining.length
        + e'.election_state.get_all_eliminated.length = p.get_candidates.length := by
  have hinitnodup : (STV.init p transfer seats).election_state.remaining.Nodup :=
    compute_votes_keys_nodup _ _
  have hinitperm : List.Perm
      (STV.init p transfer seats).election_state.get_rankings p.get_candidates := by
    show List.Perm ([] ++ ((compute_votes p.get_candidates p.get_ballots).map Prod.fst
      ++ [].reverse)) p.get_candidates
    simp only [List.nil_append, List.reverse_nil, List.append_nil]
    have hget : p.get_candidates.Nodup := pyDedup_nodup _
    have hk := compute_votes_keys p.get_candidates p.get_ballots
    rwa [pyDedup_eq_self hget] at hk
  obtain ⟨hperm, -⟩ := rankings_steps_aux n pick hpick _ e' hinitnodup h
  have htotal := hperm.trans hinitperm
  refine ⟨htotal, ?_⟩
  have hlen := htotal.length_eq
  simpa [ElectionState.get_rankings, List.length_append, Nat.add_assoc] using hlen

unseal Rat.add Rat.mul Rat.inv Rat.sub in
/-- C7, witness: one threshold-elect round of the two-candidate election
(`A` elected at threshold 2, `B` remaining): the rankings of the new
record are a permutation of the candidate set and the counts add up. -/
theorem rankings_permutation_witness :
    List.Perm (STV.mk ⟨[⟨[["A"], ["B"]], 2⟩, ⟨[["B"], ["A"]], 1⟩]⟩
        fractional_transfer 1
        (ElectionState.mk 1 ["A"] [] ["B"] ⟨[⟨[["B"]], 0⟩, ⟨[["B"]], 1⟩]⟩
          (some (ElectionState.mk 0 [] [] ["A", "B"]
            ⟨[⟨[["A"], ["B"]], 2⟩, ⟨[["B"], ["A"]], 1⟩]⟩ none)))
        2).election_state.get_rankings
      (⟨[⟨[["A"], ["B"]], 2⟩, ⟨[["B"], ["A"]], 1⟩]⟩ : PreferenceProfile).get_candidates ∧
    (STV.mk ⟨[⟨[["A"], ["B"]], 2⟩, ⟨[["B"], ["A"]], 1⟩]⟩ fractional_transfer 1
        (ElectionState.mk 1 ["A"] [] ["B"] ⟨[⟨[["B"]], 0⟩, ⟨[["B"]], 1⟩]⟩
          (some (ElectionState.mk 0 [] [] ["A", "B"]
            ⟨[⟨[["A"], ["B"]], 2⟩, ⟨[["B"], ["A"]], 1⟩]⟩ none)))
        2).election_state.get_all_winners.length
      + (STV.mk ⟨[⟨[["A"], ["B"]], 2⟩, ⟨[["B"], ["A"]], 1⟩]⟩ fractional_transfer 1
        (ElectionState.mk 1 ["A"] [] ["B"] ⟨[⟨[["B"]], 0⟩, ⟨[["B"]], 1⟩]⟩
          (some (ElectionState.mk 0 [] [] ["A", "B"]
            ⟨[⟨[["A"], ["B"]], 2⟩, ⟨[["B"], ["A"]], 1⟩]⟩ none)))
        2).election_state.remaining.length
      + (STV.mk ⟨[⟨[["A"], ["B"]], 2⟩, ⟨[["B"], ["A"]], 1⟩]⟩ fractional_transfer 1
        (ElectionState.mk 1 ["A"] [] ["B"] ⟨[⟨[["B"]], 0⟩, ⟨[["B"]], 1⟩]⟩
          (some (ElectionState.mk 0 [] [] ["A", "B"]
            ⟨[⟨[["A"], ["B"]], 2⟩, ⟨[["B"], ["A"]], 1⟩]⟩ none)))
        2).election_state.get_all_eliminated.length
      = (⟨[⟨[["A"], ["B"]], 2⟩, ⟨[["B"], ["A"]], 1⟩]⟩
          : PreferenceProfile).get_candidates.length :=
  rankings_permutation ⟨[⟨[["A"], ["B"]], 2⟩, ⟨[["B"], ["A"]], 1⟩]⟩
    fractional_transfer 1 (fun _ l => l.headD "")
    (by
      intro k l hl
      cases l with
      | nil => exact absurd rfl hl
      | cons a t => exact List.mem_cons_self _ _)
    1 _ (by rfl)

/-!
## Claim C9 — termination of `run_election`
-/

theorem remove_cand_weights (c : String) (bs : List Ballot) :
    (remove_cand c bs).map Ballot.weight = bs.map Ballot.weight := by
  unfold remove_cand
  rw [List.map_map]
  exact List.map_congr_left (fun b _ => rfl)

theorem setEqB_singleton_unique {g : List String} {d w : String}
    (hd : setEqB g [d] = true) (hw : setEqB g [w] = true) : d = w := by
  simp only [setEqB, Bool.and_eq_true, List.all_eq_true, List.mem_singleton,
    decide_eq_true_eq] at hd hw
  have hdg : d ∈ g := by simpa using hd.2 d (by simp)
  have := hw.1 d hdg
  simpa using this

theorem firstIs_unique {b : Ballot} {d w : String}
    (hd : firstIs d b = true) (hw : firstIs w b = true) : d = w := by
  rcases hb : b.ranking with - | ⟨g, t⟩
  · rw [firstIs, hb] at hd
    cases hd
  · rw [firstIs, hb] at hd hw
    exact setEqB_singleton_unique hd hw

theorem tallyOf_cons (c : String) (b : Ballot) (l : List Ballot) :
    tallyOf c (b :: l) = (if firstIs c b then b.weight else 0) + tallyOf c l := by
  by_cases h : firstIs c b = true <;> simp [tallyOf, List.filter_cons, h]

/-- How `fractional_transfer` acts on one ballot at the head of the
list: the ranking is filtered of the winner's singleton groups, and the
weight is scaled exactly when the winner was the first preference. -/
theorem fractional_transfer_cons (w : String) (votes : List (String × ℚ)) (q : ℤ)
    (b : Ballot) (bs : List Ballot) :
    fractional_transfer w (b :: bs) votes q
      = Ballot.mk (b.ranking.filter (fun g => !(setEqB g [w])))
          (if firstIs w b then
            b.weight * ((dictGet votes w - (q : ℚ)) / dictGet votes w)
          else b.weight)
        :: fractional_transfer w bs votes q := by
  by_cases hc : firstIs w b = true <;> simp [fractional_transfer, remove_cand, hc]

theorem fractional_transfer_nil (w : String) (votes : List (String × ℚ)) (q : ℤ) :
    fractional_transfer w [] votes q = [] := rfl

/-- Weights stay non-negative under `fractional_transfer` when the
scaling ratio is non-negative. -/
theorem ft_weights_nonneg {w : String} {votes : List (String × ℚ)} {q : ℤ}
    (hr : 0 ≤ (dictGet votes w - (q : ℚ)) / dictGet votes w) :
    ∀ (bs : List Ballot), (∀ b ∈ bs, 0 ≤ b.weight) →
      ∀ b' ∈ fractional_transfer w bs votes q, 0 ≤ b'.weight
  | [], _, b', hb' => by
    rw [fractional_transfer_nil] at hb'
    cases hb'
  | b :: bs, hw, b', hb' => by
    rw [fractional_transfer_cons] at hb'
    rcases List.mem_cons.1 hb' with rfl | hmem
    · by_cases hc : firstIs w b = true
      · simpa [hc] using mul_nonneg (hw b (List.mem_cons_self _ _)) hr
      · rw [Bool.not_eq_true] at hc
        simpa [hc] using hw b (List.mem_cons_self _ _)
    · exact ft_weights_nonneg hr bs
        (fun x hx => hw x (List.mem_cons_of_mem _ hx)) b' hmem

/-- The exact weight consumed by one fractional transfer: the total
weight drops by the winner's first-place weight times `q/v`. -/
theorem ft_total {w : String} {votes : List (String × ℚ)} {q : ℤ} {v : ℚ}
    (hv : dictGet votes w = v) (hvne : v ≠ 0) :
    ∀ bs : List Ballot,
      ((fractional_transfer w bs votes q).map Ballot.weight).sum
        = (bs.map Ballot.weight).sum - tallyOf w bs * ((q : ℚ) / v)
  | [] => by
    rw [fractional_transfer_nil]
    simp [tallyOf]
  | b :: bs => by
    rw [fractional_transfer_cons, tallyOf_cons]
    simp only [List.map_cons, List.sum_cons, ft_total hv hvne bs, hv]
    by_cases hc : firstIs w b = true
    · rw [hc]
      simp only [if_true]
      field_simp
      ring
    · rw [Bool.not_eq_true] at hc
      rw [hc]
      simp only [Bool.false_eq_true, if_false]
      ring

/-- The first-place weight of any candidate other than the winner does
not decrease under `fractional_transfer`. -/
theorem ft_tally_mono {d w : String} (hne : d ≠ w) {votes : List (String × ℚ)}
    {q : ℤ} (hr : 0 ≤ (dictGet votes w - (q : ℚ)) / dictGet votes w) :
    ∀ bs : List Ballot, (∀ b ∈ bs, 0 ≤ b.weight) →
      tallyOf d bs ≤ tallyOf d (fractional_transfer w bs votes q)
  | [], _ => by
    rw [fractional_transfer_nil]
  | b :: bs, hw => by
    rw [fractional_transfer_cons, tallyOf_cons, tallyOf_cons]
    refine add_le_add ?_ (ft_tally_mono hne hr bs
      (fun x hx => hw x (List.mem_cons_of_mem _ hx)))
    by_cases hfd : firstIs d b = true
    · have hfw : firstIs w b = false := by
        by_contra hwt
        rw [Bool.not_eq_false] at hwt
        exact hne (firstIs_unique hfd hwt)
      rcases hrk : b.ranking with - | ⟨g, t⟩
      · rw [firstIs, hrk] at hfd
        cases hfd
      · have hgd : setEqB g [d] = true := by
          rw [firstIs, hrk] at hfd
          exact hfd
        have hgw : setEqB g [w] = false := by
          by_contra hgwt
          rw [Bool.not_eq_false] at hgwt
          exact hne (setEqB_singleton_unique hgd hgwt)
        have hfirst : firstIs d (Ballot.mk
            ((g :: t).filter (fun g => !(setEqB g [w])))
            (if firstIs w b then
              b.weight * ((dictGet votes w - (q : ℚ)) / dictGet votes w)
            else b.weight)) = true := by
          simp [firstIs, List.filter_cons, hgw, hgd]
        rw [hfd, hfirst, hfw]
        simp
    · rw [Bool.not_eq_true] at hfd
      rw [hfd]
      simp only [Bool.false_eq_true, if_false]
      by_cases hfd' : firstIs d (Ballot.mk
          (b.ranking.filter (fun g => !(setEqB g [w])))
          (if firstIs w b then
            b.weight * ((dictGet votes w - (q : ℚ)) / dictGet votes w)
          else b.weight)) = true
      · rw [hfd']
        simp only [if_true]
        by_cases hfw : firstIs w b = true
        · rw [hfw]
          simp only [if_true]
          exact mul_nonneg (hw b (List.mem_cons_self _ _)) hr
        · rw [Bool.not_eq_true] at hfw
          rw [hfw]
          simp only [Bool.false_eq_true, if_false]
          exact hw b (List.mem_cons_self _ _)
      · rw [Bool.not_eq_true] at hfd'
        rw [hfd']
        simp

/-- Looking up a listed candidate in the tally dict gives its
first-place weight. -/
theorem dictGet_compute_votes {rem : List String} {bs : List Ballot} {c : String}
    (hc : c ∈ (compute_votes rem bs).map Prod.fst) :
    dictGet (compute_votes rem bs) c = tallyOf c bs := by
  unfold dictGet
  rcases hfind : (compute_votes rem bs).find? (fun e => e.1 = c) with - | cv
  · rw [List.find?_eq_none] at hfind
    obtain ⟨cv, hmem, rfl⟩ := List.mem_map.1 hc
    exact absurd (by simp) (hfind cv hmem)
  · have hmem : cv ∈ compute_votes rem bs := List.mem_of_find?_eq_some hfind
    have hkey : cv.1 = c := by
      have := List.find?_some hfind
      simpa using this
    have hval := compute_votes_entry hmem
    rw [hkey] at hval
    rw [hfind]
    simpa using hval

/-- Folding `fractional_transfer` over a duplicate-free list of winners
whose recorded tallies are at least the (positive) threshold and at most
their current first-place weights keeps all weights non-negative and
consumes at least one threshold of total weight per winner. -/
theorem transfer_fold_bound (q : ℤ) (hq : 1 ≤ q) (dict : List (String × ℚ)) :
    ∀ (el : List String) (bs : List Ballot),
      el.Nodup →
      (∀ b ∈ bs, 0 ≤ b.weight) →
      (∀ c ∈ el, (q : ℚ) ≤ dictGet dict c ∧ dictGet dict c ≤ tallyOf c bs) →
      (∀ b ∈ el.foldl (fun bs c => fractional_transfer c bs dict q) bs, 0 ≤ b.weight) ∧
      ((el.foldl (fun bs c => fractional_transfer c bs dict q) bs).map
          Ballot.weight).sum
        ≤ (bs.map Ballot.weight).sum - (q : ℚ) * el.length
  | [], bs, _, hw, _ => by
    refine ⟨hw, ?_⟩
    simp
  | c :: el, bs, hnd, hw, hdict => by
    obtain ⟨hcq, hctally⟩ := hdict c (List.mem_cons_self _ _)
    have hvpos : (0 : ℚ) < dictGet dict c := lt_of_lt_of_le (by exact_mod_cast hq) hcq
    have hr : 0 ≤ (dictGet dict c - (q : ℚ)) / dictGet dict c :=
      div_nonneg (by linarith) (le_of_lt hvpos)
    have hw' : ∀ b ∈ fractional_transfer c bs dict q, 0 ≤ b.weight :=
      ft_weights_nonneg hr bs hw
    have htot : ((fractional_transfer c bs dict q).map Ballot.weight).sum
        = (bs.map Ballot.weight).sum - tallyOf c bs * ((q : ℚ) / dictGet dict c) :=
      ft_total rfl (ne_of_gt hvpos) bs
    have hconsume : (q : ℚ) ≤ tallyOf c bs * ((q : ℚ) / dictGet dict c) := by
      have hqpos : (0 : ℚ) < (q : ℚ) := by exact_mod_cast hq
      have h1 : (q : ℚ) / dictGet dict c * dictGet dict c = (q : ℚ) :=
        div_mul_cancel₀ _ (ne_of_gt hvpos)
      calc (q : ℚ) = dictGet dict c * ((q : ℚ) / dictGet dict c) := by
            rw [mul_comm, h1]
        _ ≤ tallyOf c bs * ((q : ℚ) / dictGet dict c) := by
            refine mul_le_mul_of_nonneg_right hctally ?_
            exact le_of_lt (div_pos hqpos hvpos)
    obtain ⟨hcn, hel⟩ := List.nodup_cons.1 hnd
    have hdict' : ∀ d ∈ el, (q : ℚ) ≤ dictGet dict d ∧
        dictGet dict d ≤ tallyOf d (fractional_transfer c bs dict q) := by
      intro d hd
      obtain ⟨h1, h2⟩ := hdict d (List.mem_cons_of_mem _ hd)
      have hne : d ≠ c := fun h => hcn (h ▸ hd)
      exact ⟨h1, h2.trans (ft_tally_mono hne hr bs hw)⟩
    obtain ⟨hwout, hbound⟩ := transfer_fold_bound q hq dict el
      (fractional_transfer c bs dict q) hel hw' hdict'
    rw [List.foldl_cons]
    refine ⟨hwout, ?_⟩
    calc ((el.foldl (fun bs c => fractional_transfer c bs dict q)
          (fractional_transfer c bs dict q)).map Ballot.weight).sum
        ≤ ((fractional_transfer c bs dict q).map Ballot.weight).sum
            - (q : ℚ) * el.length := hbound
      _ ≤ ((bs.map Ballot.weight).sum - (q : ℚ))
            - (q : ℚ) * el.length := by
          rw [htot]
          linarith
      _ = (bs.map Ballot.weight).sum - (q : ℚ) * (c :: el).length := by
          simp only [List.length_cons]
          push_cast
          ring

/-- The quota-counting argument: if electing `k` more winners is backed
by at least `q` weight each out of what is left of `total0` after `w`
earlier winners, and `q` exceeds `total0/(s+1)` (the Droop property),
then `w + k` cannot exceed `s`. -/
theorem droop_count_bound {q T Tnew total0 wq kq sq : ℚ}
    (hqpos : 0 < q) (hT' : 0 ≤ Tnew) (hTk : Tnew ≤ T - q * kq)
    (hTW : T ≤ total0 - q * wq) (hdr : total0 < q * (sq + 1)) :
    wq + kq < sq + 1 := by
  by_contra hcon
  push_neg at hcon
  have h1 : q * (sq + 1) ≤ q * (wq + kq) :=
    mul_le_mul_of_nonneg_left hcon (le_of_lt hqpos)
  have h2 : q * (wq + kq) = q * wq + q * kq := by ring
  linarith

set_option maxHeartbeats 8000000 in
/-- One round of a running fractional-transfer election: under the
invariant, while seats remain unfilled, `run_step` always succeeds, and
either it fills the last seats, or the invariant still holds and the
number of remaining candidates strictly decreases. -/
theorem stv_invariant_step (total0 : ℚ) (pick : List String → String) (e : STV)
    (hpick : ∀ l, l ≠ [] → pick l ∈ l)
    (hInv : EngineInv total0 e)
    (hrun : (e.election_state.get_all_winners.length : ℤ) ≠ e.seats) :
    ∃ e', STV.run_step pick e = some e' ∧
      ((e'.election_state.get_all_winners.length : ℤ) = e'.seats ∨
        (EngineInv total0 e' ∧
          e'.election_state.remaining.length < e.election_state.remaining.length)) := by
  obtain ⟨htr, hq1, hs, hwts, hnodup, hD, hws, hdroop, hTW⟩ := hInv
  by_cases hmass : (e.election_state.remaining.length : ℤ)
      = e.seats - (e.election_state.get_all_winners.length : ℤ)
  · refine ⟨_, run_step_mass pick e hmass, Or.inl ?_⟩
    have hlen : ((compute_votes e.election_state.remaining
        e.election_state.profile.get_ballots).map Prod.fst).length
        = e.election_state.remaining.length := by
      rw [List.length_map]
      have h1 := (compute_votes_perm e.election_state.remaining
        e.election_state.profile.get_ballots).length_eq
      rw [List.length_map] at h1
      rw [h1, pyDedup_eq_self hnodup]
    show ((e.election_state.get_all_winners ++ (compute_votes
        e.election_state.remaining
        e.election_state.profile.get_ballots).map Prod.fst).length : ℤ) = e.seats
    rw [List.length_append, hlen]
    push_cast
    omega
  · have hwlt : (e.election_state.get_all_winners.length : ℤ) < e.seats :=
      lt_of_le_of_ne hws hrun
    have hrem1 : 1 ≤ e.election_state.remaining.length := by omega
    rcases hfp : compute_votes e.election_state.remaining
        e.election_state.profile.get_ballots with - | ⟨top, rest⟩
    · exfalso
      have h1 := (compute_votes_perm e.election_state.remaining
        e.election_state.profile.get_ballots).length_eq
      rw [hfp, List.length_map, pyDedup_eq_self hnodup] at h1
      simp at h1
      omega
    · by_cases htop : (e.threshold : ℚ) ≤ top.2
      · -- threshold-elect branch
        refine ⟨_, run_step_elect pick e top rest hmass hfp htop, ?_⟩
        have hkeys : List.Perm ((top :: rest).map Prod.fst)
            e.election_state.remaining := by
          have hk := compute_votes_keys e.election_state.remaining
            e.election_state.profile.get_ballots
          rw [hfp, pyDedup_eq_self hnodup] at hk
          exact hk
        have hkeysnodup : ((top :: rest).map Prod.fst).Nodup := by
          have := compute_votes_keys_nodup e.election_state.remaining
            e.election_state.profile.get_ballots
          rwa [hfp] at this
        have helnodup : (((top :: rest).filter
            (fun cv => (e.threshold : ℚ) ≤ cv.2)).map Prod.fst).Nodup :=
          hkeysnodup.sublist ((List.filter_sublist _).map Prod.fst)
        have helsub : ∀ c ∈ ((top :: rest).filter
            (fun cv => (e.threshold : ℚ) ≤ cv.2)).map Prod.fst,
            c ∈ e.election_state.remaining := by
          intro c hcmem
          exact hkeys.subset (((List.filter_sublist _).map Prod.fst).subset hcmem)
        have hsplit := perm_foldl_erase _ e.election_state.remaining helnodup helsub
        have htopmem : top ∈ (top :: rest).filter
            (fun cv => (e.threshold : ℚ) ≤ cv.2) :=
          List.mem_filter.2 ⟨List.mem_cons_self _ _, by simpa using htop⟩
        have hkpos : 0 < (((top :: rest).filter
            (fun cv => (e.threshold : ℚ) ≤ cv.2)).map Prod.fst).length := by
          rw [List.length_map]
          exact List.length_pos_of_mem htopmem
        have hdict : ∀ c ∈ ((top :: rest).filter
            (fun cv => (e.threshold : ℚ) ≤ cv.2)).map Prod.fst,
            (e.threshold : ℚ) ≤ dictGet (top :: rest) c ∧
            dictGet (top :: rest) c ≤ tallyOf c
              e.election_state.profile.get_ballots := by
          intro c hc
          obtain ⟨cv, hcvF, rfl⟩ := List.mem_map.1 hc
          have hcvmem : cv ∈ top :: rest := List.mem_of_mem_filter hcvF
          have hcq : (e.threshold : ℚ) ≤ cv.2 := by
            have := List.of_mem_filter hcvF
            simpa using this
          have hcv2 : cv.2 = tallyOf cv.1 e.election_state.profile.get_ballots :=
            @compute_votes_entry e.election_state.remaining
              e.election_state.profile.get_ballots cv (by rw [hfp]; exact hcvmem)
          have hdg : dictGet (top :: rest) cv.1
              = tallyOf cv.1 e.election_state.profile.get_ballots := by
            have hmem : cv.1 ∈ (compute_votes e.election_state.remaining
                e.election_state.profile.get_ballots).map Prod.fst := by
              rw [hfp]
              exact List.mem_map_of_mem Prod.fst hcvmem
            have := dictGet_compute_votes hmem
            rwa [hfp] at this
          constructor
          · rw [hdg, ← hcv2]
            exact hcq
          · rw [hdg]
        have hfold := transfer_fold_bound e.threshold hq1 (top :: rest)
          (((top :: rest).filter (fun cv => (e.threshold : ℚ) ≤ cv.2)).map Prod.fst)
          e.election_state.profile.get_ballots helnodup hwts hdict
        have hT'0 : 0 ≤ (((((top :: rest).filter
            (fun cv => (e.threshold : ℚ) ≤ cv.2)).map Prod.fst).foldl
            (fun bs c => fractional_transfer c bs (top :: rest) e.threshold)
            e.election_state.profile.get_ballots).map Ballot.weight).sum := by
          refine List.sum_nonneg ?_
          intro x hx
          obtain ⟨b', hb', rfl⟩ := List.mem_map.1 hx
          exact hfold.1 b' hb'
        have hTW' : ((e.election_state.profile.get_ballots).map Ballot.weight).sum
            ≤ total0 - (e.threshold : ℚ)
              * (e.election_state.get_all_winners.length : ℚ) := hTW
        have hqpos : (0 : ℚ) < (e.threshold : ℚ) := by exact_mod_cast hq1
        have hwkq : (e.election_state.get_all_winners.length : ℚ)
            + ((((top :: rest).filter (fun cv => (e.threshold : ℚ) ≤ cv.2)).map
              Prod.fst).length : ℚ) < (e.seats : ℚ) + 1 :=
          droop_count_bound hqpos hT'0 hfold.2 hTW' hdroop
        have hwk : ((e.election_state.get_all_winners.length : ℤ)
            + ((((top :: rest).filter (fun cv => (e.threshold : ℚ) ≤ cv.2)).map
              Prod.fst).length : ℤ)) ≤ e.seats := by
          have : (e.election_state.get_all_winners.length : ℤ)
              + ((((top :: rest).filter (fun cv => (e.threshold : ℚ) ≤ cv.2)).map
                Prod.fst).length : ℤ) < e.seats + 1 := by exact_mod_cast hwkq
          omega
        simp only [elect_loop, elect_loop_unfold, List.nil_append, htr]
        by_cases hterm : ((e.election_state.get_all_winners
            ++ ((top :: rest).filter (fun cv => (e.threshold : ℚ) ≤ cv.2)).map
              Prod.fst).length : ℤ) = e.seats
        · left
          exact hterm
        · right
          have hremlen : e.election_state.remaining.length
              = (((top :: rest).filter (fun cv => (e.threshold : ℚ) ≤ cv.2)).map
                  Prod.fst).length
                + ((((top :: rest).filter (fun cv => (e.threshold : ℚ) ≤ cv.2)).map
                  Prod.fst).foldl (fun r c => r.erase c)
                  e.election_state.remaining).length := by
            have := hsplit.length_eq
            simpa [List.length_append] using this
          refine ⟨⟨rfl, hq1, hs, ?_, ?_, ?_, ?_, hdroop, ?_⟩, ?_⟩
          · exact hfold.1
          · exact nodup_foldl_erase _ _ hnodup
          · show e.seats - ((e.election_state.get_all_winners
                ++ ((top :: rest).filter (fun cv => (e.threshold : ℚ) ≤ cv.2)).map
                  Prod.fst).length : ℤ)
              ≤ (((((top :: rest).filter (fun cv => (e.threshold : ℚ) ≤ cv.2)).map
                  Prod.fst).foldl (fun r c => r.erase c)
                  e.election_state.remaining).length : ℤ)
            rw [List.length_append]
            push_cast
            omega
          · show ((e.election_state.get_all_winners
                ++ ((top :: rest).filter (fun cv => (e.threshold : ℚ) ≤ cv.2)).map
                  Prod.fst).length : ℤ) ≤ e.seats
            rw [List.length_append] at hterm ⊢
            push_cast at hterm ⊢
            omega
          · show ((((((top :: rest).filter (fun cv => (e.threshold : ℚ) ≤ cv.2)).map
                Prod.fst).foldl (fun bs c => fractional_transfer c bs (top :: rest)
                  e.threshold) e.election_state.profile.get_ballots).map
                Ballot.weight).sum : ℚ)
              ≤ total0 - (e.threshold : ℚ)
                * (((e.election_state.get_all_winners
                  ++ ((top :: rest).filter (fun cv => (e.threshold : ℚ) ≤ cv.2)).map
                    Prod.fst).length : ℕ) : ℚ)
            rw [List.length_append]
            push_cast
            have h2 := hfold.2
            linarith
          · show ((((top :: rest).filter (fun cv => (e.threshold : ℚ) ≤ cv.2)).map
                Prod.fst).foldl (fun r c => r.erase c)
                e.election_state.remaining).length
              < e.election_state.remaining.length
            omega
      · -- eliminate branch (htop is false; the seats are not yet filled)
        refine ⟨_, run_step_eliminate pick e top rest hmass hfp htop hrun, Or.inr ?_⟩
        have hlpmem : pick (((top :: rest).filter
            (fun cv => cv.2 = ((top :: rest).map Prod.snd).foldl min top.2)).map
              Prod.fst) ∈ e.election_state.remaining :=
          lp_candidates_subset hfp _ (hpick _ (lp_candidates_ne_nil top rest))
        have hlen : (e.election_state.remaining.erase (pick (((top :: rest).filter
            (fun cv => cv.2 = ((top :: rest).map Prod.snd).foldl min top.2)).map
              Prod.fst))).length = e.election_state.remaining.length - 1 :=
          List.length_erase_of_mem hlpmem
        refine ⟨⟨htr, hq1, hs, ?_, hnodup.erase _, ?_, ?_, hdroop, ?_⟩, ?_⟩
        · intro b' hb'
          replace hb' : b' ∈ (e.election_state.profile.get_ballots).map
              (fun b => { b with
                ranking := b.ranking.filter (fun g => !(setEqB g
                  [pick (((top :: rest).filter
                    (fun cv => cv.2 = ((top :: rest).map Prod.snd).foldl min
                      top.2)).map Prod.fst)])) }) := hb'
          obtain ⟨b, hb, hbeq⟩ := List.mem_map.1 hb'
          rw [← hbeq]
          exact hwts b hb
        · show e.seats - ((e.election_state.get_all_winners ++ []).length : ℤ)
              ≤ ((e.election_state.remaining.erase (pick (((top :: rest).filter
                (fun cv => cv.2 = ((top :: rest).map Prod.snd).foldl min
                  top.2)).map Prod.fst))).length : ℤ)
          rw [List.append_nil, hlen]
          omega
        · show ((e.election_state.get_all_winners ++ []).length : ℤ) ≤ e.seats
          rw [List.append_nil]
          exact hws
        · show (((remove_cand (pick (((top :: rest).filter
              (fun cv => cv.2 = ((top :: rest).map Prod.snd).foldl min
                top.2)).map Prod.fst))
              e.election_state.profile.get_ballots).map Ballot.weight).sum : ℚ)
            ≤ total0 - (e.threshold : ℚ)
              * (((e.election_state.get_all_winners ++ []).length : ℕ) : ℚ)
          rw [remove_cand_weights, List.append_nil]
          exact hTW
        · show (e.election_state.remaining.erase (pick (((top :: rest).filter
              (fun cv => cv.2 = ((top :: rest).map Prod.snd).foldl min
                top.2)).map Prod.fst))).length
            < e.election_state.remaining.length
          rw [hlen]
          omega

/-- Strong induction on the number of remaining candidates: from any
state satisfying the invariant, some `n` at most the number of remaining
candidates reaches a state with all seats filled. -/
theorem stv_terminates_aux (total0 : ℚ) :
    ∀ (k : ℕ) (pick : ℕ → List String → String),
      (∀ j l, l ≠ [] → pick j l ∈ l) →
      ∀ e : STV, e.election_state.remaining.length ≤ k →
        EngineInv total0 e →
        ∃ n ≤ e.election_state.remaining.length, ∃ e',
          STV.run_steps pick n e = some e' ∧
          (e'.election_state.get_all_winners.length : ℤ) = e'.seats
  | 0, pick, _, e, hk, hInv => by
    by_cases hterm : (e.election_state.get_all_winners.length : ℤ) = e.seats
    · exact ⟨0, Nat.zero_le _, e, rfl, hterm⟩
    · exfalso
      obtain ⟨-, -, -, -, -, hD, hws, -, -⟩ := hInv
      have h0 : (e.election_state.remaining.length : ℤ) ≤ 0 := by exact_mod_cast hk
      omega
  | k + 1, pick, hpick, e, hk, hInv => by
    by_cases hterm : (e.election_state.get_all_winners.length : ℤ) = e.seats
    · exact ⟨0, Nat.zero_le _, e, rfl, hterm⟩
    · obtain ⟨e1, hstep, hout⟩ :=
        stv_invariant_step total0 (pick 0) e (hpick 0) hInv hterm
      rcases hout with hdone | ⟨hInv1, hlt⟩
      · refine ⟨1, ?_, e1, ?_, hdone⟩
        · obtain ⟨-, -, -, -, -, hD, hws, -, -⟩ := hInv
          have h1 : 1 ≤ (e.election_state.remaining.length : ℤ) := by omega
          exact_mod_cast h1
        · show STV.run_steps pick 1 e = some e1
          rw [STV.run_steps, hstep]
          rfl
      · have hk1 : e1.election_state.remaining.length ≤ k := by omega
        obtain ⟨n, hn, e', hrun, hfin⟩ := stv_terminates_aux total0 k
          (fun j => pick (j + 1)) (fun j => hpick (j + 1)) e1 hk1 hInv1
        refine ⟨n + 1, by omega, e', ?_, hfin⟩
        rw [STV.run_steps, hstep]
        exact hrun

/-- C9: every fractional-transfer STV election terminates.  For every
initial profile with non-negative ballot weights, every positive seat
count at most the number of candidates, and every sequence of
elimination tie-break choices (each returning a member of its pool, as
`random.choice` does), after at most `len(initial candidates)` rounds —
all of which succeed — `next_round()` becomes false, so `run_election`'s
loop exits and it returns. -/
theorem stv_election_terminates (p : PreferenceProfile) (seats : ℤ)
    (pick : ℕ → List String → String)
    (hpick : ∀ j l, l ≠ [] → pick j l ∈ l)
    (hw : ∀ b ∈ p.ballots, 0 ≤ b.weight)
    (hs : 0 < seats) (hcand : seats ≤ (p.get_candidates.length : ℤ)) :
    ∃ n ≤ p.get_candidates.length, ∃ e',
      STV.run_steps pick n (STV.init p fractional_transfer seats) = some e' ∧
      STV.next_round e' = false := by
  have htotal0 : (0 : ℚ) ≤ p.num_ballots := by
    refine List.sum_nonneg ?_
    intro x hx
    obtain ⟨b, hb, rfl⟩ := List.mem_map.1 hx
    exact hw b hb
  have hs1 : (0 : ℚ) < (seats : ℚ) + 1 := by
    have : (1 : ℚ) ≤ (seats : ℚ) := by exact_mod_cast hs
    linarith
  have hqval : (STV.init p fractional_transfer seats).threshold
      = ⌊p.num_ballots / ((seats : ℚ) + 1)⌋ + 1 :=
    (droop_threshold p fractional_transfer seats hs htotal0).1
  have hq1 : 1 ≤ (STV.init p fractional_transfer seats).threshold := by
    rw [hqval]
    have : 0 ≤ ⌊p.num_ballots / ((seats : ℚ) + 1)⌋ :=
      Int.floor_nonneg.2 (div_nonneg htotal0 (le_of_lt hs1))
    omega
  have hdroop : p.num_ballots
      < ((STV.init p fractional_transfer seats).threshold : ℚ)
        * ((seats : ℚ) + 1) := by
    rw [hqval]
    have hlt : p.num_ballots / ((seats : ℚ) + 1)
        < (((⌊p.num_ballots / ((seats : ℚ) + 1)⌋ + 1 : ℤ) : ℚ)) := by
      push_cast
      exact Int.lt_floor_add_one _
    calc p.num_ballots
        = p.num_ballots / ((seats : ℚ) + 1) * ((seats : ℚ) + 1) := by
          field_simp
      _ < (((⌊p.num_ballots / ((seats : ℚ) + 1)⌋ + 1 : ℤ) : ℚ))
            * ((seats : ℚ) + 1) := by
          exact mul_lt_mul_of_pos_right hlt hs1
  have hreml : (STV.init p fractional_transfer seats).election_state.remaining.length
      = p.get_candidates.length := by
    show ((compute_votes p.get_candidates p.get_ballots).map Prod.fst).length = _
    rw [List.length_map]
    have h1 := (compute_votes_perm p.get_candidates p.get_ballots).length_eq
    rw [List.length_map] at h1
    have hget : p.get_candidates.Nodup := pyDedup_nodup _
    rw [h1, pyDedup_eq_self hget]
  have hInv : EngineInv p.num_ballots (STV.init p fractional_transfer seats) := by
    refine ⟨rfl, hq1, hs, hw, compute_votes_keys_nodup _ _, ?_, ?_, hdroop, ?_⟩
    · show seats - (([] : List String).length : ℤ) ≤ _
      rw [hreml]
      simpa using hcand
    · show (([] : List String).length : ℤ) ≤ seats
      simpa using le_of_lt hs
    · show p.num_ballots ≤ p.num_ballots
        - ((STV.init p fractional_transfer seats).threshold : ℚ)
          * ((([] : List String).length : ℕ) : ℚ)
      simp
  obtain ⟨n, hn, e', hrun, hfin⟩ := stv_terminates_aux p.num_ballots
    p.get_candidates.length pick hpick (STV.init p fractional_transfer seats)
    (le_of_eq hreml) hInv
  refine ⟨n, ?_, e', hrun, ?_⟩
  · rw [hreml] at hn
    exact hn
  · simp [STV.next_round, hfin]

unseal Rat.add Rat.mul Rat.inv Rat.sub in
/-- C9, witness: the one-candidate, one-seat election over a single
ballot terminates within one round. -/
theorem stv_election_terminates_witness :
    ∃ n ≤ (⟨[⟨[["A"]], 1⟩]⟩ : PreferenceProfile).get_candidates.length, ∃ e',
      STV.run_steps (fun _ l => l.headD "") n
        (STV.init ⟨[⟨[["A"]], 1⟩]⟩ fractional_transfer 1) = some e' ∧
      STV.next_round e' = false :=
  stv_election_terminates ⟨[⟨[["A"]], 1⟩]⟩ 1 (fun _ l => l.headD "")
    (by
      intro j l hl
      cases l with
      | nil => exact absurd rfl hl
      | cons a t => exact List.mem_cons_self _ _)
    (by decide) (by decide) (by decide)
